import Mathlib

/-!
# Verification of the md-ai core against its specification

Shallow embedding of the repository's core components:

* `determineNextTurn` (src/src/chat.ts)
* `parseGitignore`, `ensureProjectPath` (src/src/tools/_shared.ts)
* `applyPatchToString`, `applyAddPatch` (src/src/tools/write-files.ts)
* `markdownToMessages` (src/src/markdown-parse.ts) and
  `messagesToMarkdown` (src/src/markdown/serialize.ts)

JavaScript string primitives (split / join / trim / startsWith / ...) are
modelled over the character list underlying `String`.  External collaborators
(the remark block parser, JSON.parse / JSON.stringify, zod schema validation,
brotli compression, the filesystem) are modelled explicitly where the claims
need them and kept abstract (as function parameters) where they don't.
-/

namespace MdAI

/-! ## JavaScript string primitives -/

/-- Whitespace test covering the ASCII whitespace the repository's data uses
(model of the whitespace class of JS `trim`). -/
def wsChar (c : Char) : Bool :=
  c = ' ' || c = '\t' || c = '\n' || c = '\r'

/-- Model of JS `String.prototype.trim`. -/
def jsTrim (s : String) : String :=
  ⟨((s.data.dropWhile wsChar).reverse.dropWhile wsChar).reverse⟩

/-- Model of JS `String.prototype.trimEnd`. -/
def jsTrimEnd (s : String) : String :=
  ⟨(s.data.reverse.dropWhile wsChar).reverse⟩

/-- Splitting a character list at every occurrence of a separator character;
`splitCharList sep l` always returns a non-empty list of chunks. -/
def splitCharList (sep : Char) : List Char → List (List Char)
  | [] => [[]]
  | c :: cs =>
    let rest := splitCharList sep cs
    if c = sep then [] :: rest
    else
      match rest with
      | [] => [[c]]
      | r :: rs => (c :: r) :: rs

/-- Model of JS `s.split(sep)` for a one-character separator. -/
def jsSplit (sep : Char) (s : String) : List String :=
  (splitCharList sep s.data).map (fun l => ⟨l⟩)

/-- Model of JS `Array.prototype.join` with a one-character separator. -/
def joinSep (sep : Char) (ls : List String) : String :=
  ⟨List.intercalate [sep] (ls.map String.data)⟩

/-- Model of JS `s.startsWith(pre)`. -/
def jsStartsWith (s pre : String) : Bool :=
  pre.data.isPrefixOf s.data

/-- Model of JS `s.endsWith(suf)`. -/
def jsEndsWith (s suf : String) : Bool :=
  suf.data.reverse.isPrefixOf s.data.reverse

/-- Model of JS `s.includes(c)` for a single character. -/
def jsIncludesChar (c : Char) (s : String) : Bool :=
  s.data.contains c

/-- Model of JS `s.slice(n)` (drop the first `n` characters). -/
def strDrop (s : String) (n : Nat) : String :=
  ⟨s.data.drop n⟩

/-- Drop the last `n` characters of a string. -/
def strDropRight (s : String) (n : Nat) : String :=
  ⟨s.data.take (s.data.length - n)⟩

/-- ASCII lower-casing of one character (model of JS `toLowerCase` on the
ASCII range the repository's role headings use). -/
def lowerChar (c : Char) : Char :=
  if 'A' ≤ c ∧ c ≤ 'Z' then Char.ofNat (c.toNat + 32) else c

/-- Model of JS `String.prototype.toLowerCase` (ASCII range). -/
def jsToLower (s : String) : String :=
  ⟨s.data.map lowerChar⟩

/-! ## Data model (src/src/markdown-parse.ts, src/src/chat.ts)

`CoreMessage` of the ai SDK: a role together with content that is either a
plain string or an ordered list of content parts. -/

inductive Role
  | system
  | user
  | assistant
  | tool
deriving DecidableEq, Repr

/-- The string form of a role, as written into a heading by the serializer. -/
def roleStr : Role → String
  | .system => "system"
  | .user => "user"
  | .assistant => "assistant"
  | .tool => "tool"

/-- JSON values, modelled to the depth the claims inspect them.  Tool-call
arguments and tool results are records over these; their decoding and
encoding (JSON.parse / JSON.stringify / zod) stay abstract. -/
inductive JsonVal
  | null
  | bool (b : Bool)
  | num (n : Int)
  | str (s : String)
deriving DecidableEq, Repr

/-- A JSON record (`z.record(z.any())` in the zod schemas). -/
abbrev JsonObj := List (String × JsonVal)

/-- Payload of a `tool-call` fence: `toolCallSchema` in markdown-parse.ts. -/
structure ToolCallData where
  toolCallId : String
  toolName : String
  args : JsonObj
deriving DecidableEq, Repr

/-- Payload of a `tool-result` fence: `toolResultSchema` in markdown-parse.ts. -/
structure ToolResultData where
  toolCallId : String
  toolName : String
  result : JsonObj
deriving DecidableEq, Repr

/-- `ContentPart` of markdown-parse.ts: text, tool-call or tool-result part. -/
inductive ContentPart
  | text (text : String)
  | toolCall (d : ToolCallData)
  | toolResult (d : ToolResultData)
deriving DecidableEq, Repr

/-- `MessageContent`: a plain string or an ordered list of parts. -/
inductive MessageContent
  | str (s : String)
  | parts (ps : List ContentPart)
deriving DecidableEq, Repr

/-- `CoreMessage`: role plus content. -/
structure Message where
  role : Role
  content : MessageContent
deriving DecidableEq, Repr

/-! ## The turn automaton (src/src/chat.ts, `determineNextTurn`) -/

/-- `NextTurn` of chat.ts. -/
inductive NextTurn
  | userTurn (addHeading : Bool)
  | assistantTurn (skipConfirm : Bool)
deriving DecidableEq, Repr

/-- JS `content.length`: string length for string content, array length for
part-array content. -/
def MessageContent.jsLength : MessageContent → Nat
  | .str s => s.length
  | .parts ps => ps.length

/-- Embedding of `determineNextTurn` (src/src/chat.ts, lines 178-201).
`chat.at(-1)` is the last element of the list. -/
def determineNextTurn (chat : List Message) : NextTurn :=
  match chat.getLast? with
  | none => .userTurn true
  | some lastMessage =>
    if lastMessage.role = .assistant then .userTurn true
    else if lastMessage.role = .system then .userTurn true
    else if lastMessage.role = .tool then .assistantTurn true
    else if lastMessage.content.jsLength = 0 then .userTurn false
    else .assistantTurn false

/-! ## The gitignore compiler (src/src/tools/_shared.ts, `parseGitignore`) -/

/-- Expansion of one trimmed, non-empty, non-comment gitignore line (the body
of the `flatMap` in `parseGitignore`). -/
def expandGitignoreLine (raw : String) : List String :=
  let isNeg := jsStartsWith raw "!"
  let pat0 := if isNeg then strDrop raw 1 else raw
  let anchored := jsStartsWith pat0 "/"
  let pat1 := if anchored then strDrop pat0 1 else pat0
  let isDirRule :=
    jsEndsWith pat1 "/" || (!(jsIncludesChar '*' pat1) && !(jsIncludesChar '.' pat1))
  let pat := if isDirRule then (if jsEndsWith pat1 "/" then strDropRight pat1 1 else pat1) else pat1
  let base := if anchored then pat else "**/" ++ pat
  if isDirRule then
    let dirPatterns := [base, base ++ "/**"]
    if isNeg then dirPatterns.map (fun p => "!" ++ p) else dirPatterns
  else
    let filePattern := if anchored then pat else "**/" ++ pat
    [if isNeg then "!" ++ filePattern else filePattern]

/-- Embedding of `parseGitignore` (src/src/tools/_shared.ts, lines 90-115).
The JS splits on the regex `\r?\n`; splitting on a newline and trimming each
line (which removes a stray carriage return) is equivalent. -/
def parseGitignore (content : String) : List String :=
  ((((jsSplit '\n' content).map jsTrim).filter
      (fun line => line != "" && !(jsStartsWith line "#"))).map expandGitignoreLine).flatten

/-- Whether a gitignore line carries a leading negation marker (the `isNeg`
of `expandGitignoreLine`). -/
def lineIsNeg (raw : String) : Bool := jsStartsWith raw "!"

/-- The pattern after stripping the negation marker and the root anchor (the
`pat1` of `expandGitignoreLine`). -/
def strippedPat (raw : String) : String :=
  let pat0 := if lineIsNeg raw then strDrop raw 1 else raw
  if jsStartsWith pat0 "/" then strDrop pat0 1 else pat0

/-- Whether the line is anchored to the root (the `anchored` of
`expandGitignoreLine`). -/
def lineAnchored (raw : String) : Bool :=
  jsStartsWith (if lineIsNeg raw then strDrop raw 1 else raw) "/"

/-- The directory-rule test of `parseGitignore`, on the stripped pattern:
the pattern ends with a slash, or contains neither a star nor a dot. -/
def lineIsDirRule (raw : String) : Bool :=
  jsEndsWith (strippedPat raw) "/" ||
    (!(jsIncludesChar '*' (strippedPat raw)) && !(jsIncludesChar '.' (strippedPat raw)))

/-- The final pattern of a line (the `pat` of `expandGitignoreLine`): a
directory rule loses one trailing slash. -/
def linePat (raw : String) : String :=
  if lineIsDirRule raw then
    (if jsEndsWith (strippedPat raw) "/" then strDropRight (strippedPat raw) 1
     else strippedPat raw)
  else strippedPat raw

/-- The glob base of a line (the `base` of `expandGitignoreLine`): anchored
lines keep the bare pattern, unanchored ones get the recursive directory
pattern in front. -/
def lineBase (raw : String) : String :=
  if lineAnchored raw then linePat raw else "**/" ++ linePat raw

/-! ## Path resolution (src/src/tools/_shared.ts, `ensureProjectPath`) -/

/-- Model of `node:path`'s posix `isAbsolute`. -/
def isAbsolutePath (s : String) : Bool :=
  jsStartsWith s "/"

/-- Segment normalization performed by `node:path`'s posix `resolve`: empty
and `.` segments vanish, `..` pops the previous segment (never above `/`). -/
def resolveSegs (segs : List String) : List String :=
  segs.foldl
    (fun acc seg =>
      if seg = "" || seg = "." then acc
      else if seg = ".." then acc.dropLast
      else acc ++ [seg])
    []

/-- Model of `resolve(root, rel)` from `node:path` (posix), for an absolute,
already-normalized `root`. -/
def resolvePath (root rel : String) : String :=
  let full := if isAbsolutePath rel then rel else root ++ "/" ++ rel
  "/" ++ joinSep '/' (resolveSegs (jsSplit '/' full))

/-- Embedding of `ensureProjectPath` (src/src/tools/_shared.ts, lines 47-53).
An absolute `rel` is used verbatim (without normalization), exactly as in the
source; the guard is a plain string-prefix test.  The thrown error is
modelled as `Except.error`. -/
def ensureProjectPath (projectRoot rel : String) : Except String String :=
  let abs := if isAbsolutePath rel then rel else resolvePath projectRoot rel
  if jsStartsWith abs projectRoot then .ok abs
  else .error "Path outside project root"

/-- A normalized absolute location `p` is inside the root directory `root`
when it is the root itself or lies strictly below it.  This is the intended
meaning of "resolves outside the configured project root". -/
def insideRoot (root p : String) : Prop :=
  p = root ∨ jsStartsWith p (root ++ "/") = true

instance (root p : String) : Decidable (insideRoot root p) := by
  unfold insideRoot; infer_instance

/-! ## The update-patch engine (src/src/tools/write-files.ts, `applyPatchToString`) -/

/-- An `update` patch: `search` text to be replaced by `replace` text. -/
structure UpdatePatch where
  path : String
  search : String
  replace : String
deriving DecidableEq, Repr

/-- Model of `Array.prototype.splice(start, deleteCount, ...items)` on a line
list (all uses in the source stay within bounds). -/
def spliceList (l : List String) (start del : Nat) (items : List String) : List String :=
  l.take start ++ items ++ l.drop (start + del)

/-- The inner loop of the match scan: the search lines match the content
lines elementwise starting at index `i`. -/
def matchAt (ncl nsl : List String) (i : Nat) : Bool :=
  nsl.isPrefixOf (ncl.drop i)

/-- The match-scan loop of `applyPatchToString`: all start indices `i` with
`i <= content.length - search.length` (a JS number comparison, hence no
iteration at all when the search is longer than the content) at which the
normalized search lines match. -/
def findMatchStarts (ncl nsl : List String) : List Nat :=
  if nsl.length ≤ ncl.length then
    (List.range (ncl.length - nsl.length + 1)).filter (matchAt ncl nsl)
  else []

/-- Embedding of `applyPatchToString` (src/src/tools/write-files.ts, lines
397-454).  Thrown errors are modelled as `Except.error`. -/
def applyPatchToString (content : String) (patch : UpdatePatch) : Except String String :=
  let contentLines := jsSplit '\n' content
  let searchLines := jsSplit '\n' patch.search
  let replaceLines := jsSplit '\n' patch.replace
  let normalizedContentLines := contentLines.map jsTrim
  let normalizedSearchLines := searchLines.map jsTrim
  if normalizedSearchLines.length = 0 then .error "search lines is empty"
  else
    let matchStarts := findMatchStarts normalizedContentLines normalizedSearchLines
    if matchStarts = [] then .error "did not find a match for the search lines"
    else
      let updated := matchStarts.reverse.foldl
        (fun acc s => spliceList acc s searchLines.length replaceLines) contentLines
      .ok (joinSep '\n' updated)

/-- Specification-side matching relation: the file lines from `i` on,
compared to the search lines after per-line whitespace trimming. -/
def matchesAt (content search : String) (i : Nat) : Prop :=
  let cl := jsSplit '\n' content
  let sl := jsSplit '\n' search
  i + sl.length ≤ cl.length ∧ ((cl.drop i).take sl.length).map jsTrim = sl.map jsTrim

instance (content search : String) (i : Nat) : Decidable (matchesAt content search i) := by
  unfold matchesAt; infer_instance

/-- Specification-side list of all matching start indices, in increasing
order. -/
def allMatchStarts (content search : String) : List Nat :=
  (List.range ((jsSplit '\n' content).length + 1)).filter
    (fun i => decide (matchesAt content search i))

/-! ## The filesystem model and the add patch (src/src/tools/write-files.ts) -/

/-- The filesystem, as a finite map from absolute paths to file contents. -/
abbrev FileSystem := List (String × String)

/-- Result record reported per patch (`PatchResult` in write-files.ts). -/
structure PatchResult where
  ok : Bool
  path : String
  status : String
  reason : Option String
deriving DecidableEq, Repr

/-- Model of `writeFile(path, content, flag wx)`: fails when the path
already exists, creates the file otherwise. -/
def writeFileWx (fs : FileSystem) (path content : String) : Except String FileSystem :=
  if (fs.lookup path).isSome then .error "EEXIST"
  else .ok ((path, content) :: fs)

/-- An `add` patch. -/
structure AddPatch where
  path : String
  content : String
deriving DecidableEq, Repr

/-- Embedding of `applyAddPatch` (src/src/tools/write-files.ts, lines
247-267).  The `ensureProjectPath` throw is not caught in the source, so it
propagates as `Except.error`; the `tryCatch` around `writeFile` turns a
failed exclusive write into the reported conflict result. -/
def applyAddPatch (fs : FileSystem) (cwd : String) (patch : AddPatch) :
    Except String (PatchResult × FileSystem) :=
  match ensureProjectPath cwd patch.path with
  | .error e => .error e
  | .ok projectPath =>
    match writeFileWx fs projectPath patch.content with
    | .error _ =>
      .ok ({ ok := false, path := patch.path, status := "add-failed",
             reason := some "file already exists" }, fs)
    | .ok fs2 =>
      .ok ({ ok := true, path := patch.path, status := "add", reason := none }, fs2)

/-! ## The markdown block model

`markdownToMessages` consumes the block-level output of the remark parser.
`MdBlock` carries exactly the node data the source reads: the node kind, a
heading's depth and first-child text, a code fence's info string and body,
a paragraph's concatenated inline text, and the raw source slice. -/

inductive MdBlock
  | heading (depth : Nat) (firstChildText : Option String) (raw : String)
  | code (lang : Option String) (value : String) (raw : String)
  | para (text : String) (raw : String)
  | other (raw : String)
deriving DecidableEq, Repr

/-- `VALID_ROLES` of src/src/markdown-parse.ts (line 226). -/
def VALID_ROLES : List String := ["user", "assistant", "tool"]

/-- Embedding of `checkRoleHeading` (src/src/markdown-parse.ts, lines
228-234): the heading's first child must be a text node whose trimmed,
lower-cased value is in `VALID_ROLES`.  `none` as input covers both a missing
first child and a non-text first child. -/
def checkRoleHeading (node : Option String) : Option Role :=
  match node with
  | none => none
  | some v =>
    let t := jsToLower (jsTrim v)
    if VALID_ROLES.contains t then
      if t = "user" then some .user
      else if t = "assistant" then some .assistant
      else some .tool
    else none

/-- One section under a role heading (`sections` entries in the source). -/
structure MsgSection where
  role : Role
  parts : List ContentPart
deriving DecidableEq, Repr

/-- Parsing state: the finished sections plus the currently open one.  The
source keeps `current` aliased inside `sections`; here the open section is
held separately and appended at the end, which is observably the same. -/
structure ParseState where
  secs : List MsgSection
  current : Option MsgSection
deriving DecidableEq, Repr

/-- The fence-payload decoders: `JSON.parse` composed with the zod schema
(`toolCallSchema.parse(JSON.parse(v))` and the tool-result analogue), both
external to the embedded code, kept abstract. -/
structure ParseDeps where
  callDec : String → Option ToolCallData
  resDec : String → Option ToolResultData

/-- `current.parts.push(p)`; a no-op when no section is open (the
`if (!current) return` guard of the source). -/
def pushPart (st : ParseState) (p : ContentPart) : ParseState :=
  match st.current with
  | none => st
  | some sec => { st with current := some { sec with parts := sec.parts ++ [p] } }

/-- Embedding of the per-node body of the `tree.children.forEach` loop of
`markdownToMessages` (src/src/markdown-parse.ts, lines 147-197).  A thrown
error (misplaced fence, or a fence body rejected by `JSON.parse`/zod) is
`Except.error`. -/
def stepBlock (dep : ParseDeps) (st : ParseState) (b : MdBlock) : Except String ParseState :=
  match b with
  | .heading 2 fct raw =>
    match checkRoleHeading fct with
    | some r => .ok { secs := st.secs ++ st.current.toList, current := some { role := r, parts := [] } }
    | none => .ok (pushPart st (.text raw))
  | .heading _ _ raw => .ok (pushPart st (.text raw))
  | .code lang value raw =>
    match st.current with
    | none => .ok st
    | some sec =>
      if lang = some "tool-call" then
        if sec.role ≠ .assistant then .error "Tool calls are only allowed in assistant messages"
        else
          match dep.callDec value with
          | some d => .ok (pushPart st (.toolCall d))
          | none => .error "invalid tool call payload"
      else if lang = some "tool-result" then
        if sec.role ≠ .tool then .error "Tool results are only allowed in tool messages"
        else
          match dep.resDec value with
          | some d => .ok (pushPart st (.toolResult d))
          | none => .error "invalid tool result payload"
      else .ok (pushPart st (.text raw))
  | .para text _ => .ok (pushPart st (.text (text ++ "\n")))
  | .other raw => .ok (pushPart st (.text raw))

/-- The `forEach` loop over all block nodes. -/
def foldBlocks (dep : ParseDeps) (st0 : Except String ParseState) (bs : List MdBlock) :
    Except String ParseState :=
  bs.foldl
    (fun st b =>
      match st with
      | .error e => .error e
      | .ok s => stepBlock dep s b)
    st0

/-- JS `t.replace(/\n$/, "")`: drop one trailing newline when present. -/
def stripOneTrailingNl (t : String) : String :=
  if jsEndsWith t "\n" then strDropRight t 1 else t

/-- Section-content canonicalization (src/src/markdown-parse.ts, lines
199-209): no parts give the empty string, a single text part collapses to a
bare string minus one trailing newline, anything else stays a part list. -/
def sectionContent : List ContentPart → MessageContent
  | [] => .str ""
  | [ContentPart.text t] => .str (stripOneTrailingNl t)
  | ps => .parts ps

/-- The final `sections.map` of `markdownToMessages`. -/
def finishParse (st : ParseState) : List Message :=
  (st.secs ++ st.current.toList).map
    (fun sec => { role := sec.role, content := sectionContent sec.parts })

/-- `markdownToMessages` on an already block-parsed input. -/
def parseBlocks (dep : ParseDeps) (bs : List MdBlock) : Except String (List Message) :=
  match foldBlocks dep (.ok { secs := [], current := none }) bs with
  | .error e => .error e
  | .ok st => .ok (finishParse st)

/-- Whether a block opens a new section: a depth-2 heading with a
recognized role. -/
def opensSection (b : MdBlock) : Bool :=
  match b with
  | .heading 2 fct _ => (checkRoleHeading fct).isSome
  | _ => false

/-! ## The markdown block tokenizer

A model of the remark block parser on the fragment the conversation files
use: ATX headings at column zero, backtick fences at column zero, blank-line
separated paragraphs of plain text (a paragraph's inline value is its lines,
each stripped of surrounding whitespace, joined by newlines), everything
processed line by line. -/

/-- A blank line (only spaces and tabs). -/
def isBlankLine (l : String) : Bool :=
  l.data.all (fun c => c = ' ' || c = '\t')

/-- Number of leading `#` characters. -/
def headingLevel (l : String) : Nat :=
  (l.data.takeWhile (fun c => c = '#')).length

/-- An ATX heading line: one to six `#`, then a space or the end of line. -/
def isHeadingLine (l : String) : Bool :=
  let k := headingLevel l
  1 ≤ k && k ≤ 6 && (l.data.drop k = [] || (l.data.drop k).head? = some ' ')

/-- The heading's inline text: the rest of the line, trimmed; an empty rest
means the heading has no children at all. -/
def headingText (l : String) : Option String :=
  let k := headingLevel l
  let t := jsTrim (strDrop l k)
  if t = "" then none else some t

/-- A fence-opening line. -/
def isFenceLine (l : String) : Bool :=
  jsStartsWith l "```"

/-- The backtick character (code point 96). -/
def backtick : Char := Char.ofNat 96

/-- A fence-closing line: nothing but backticks after trimming. -/
def isFenceCloseLine (l : String) : Bool :=
  (jsTrim l).data ≠ [] && (jsTrim l).data.all (fun c => c = backtick)

/-- The fence's info string (remark's `lang`), `none` when absent. -/
def fenceInfo (l : String) : Option String :=
  let t := jsTrim (strDrop l 3)
  if t = "" then none else some t

/-- Tokenizer mode: between blocks, inside a paragraph, or inside a fence. -/
inductive TokMode
  | normal
  | inPara (acc : List String)
  | inFence (info : Option String) (acc : List String)
deriving DecidableEq, Repr

/-- Tokenizer state: emitted blocks plus the current mode. -/
structure TokState where
  blocks : List MdBlock
  mode : TokMode
deriving DecidableEq, Repr

/-- Close a paragraph: inline text is the trimmed lines joined by newlines. -/
def paraBlockOf (acc : List String) : MdBlock :=
  .para (joinSep '\n' (acc.map jsTrim)) (joinSep '\n' acc)

/-- Close a code fence. -/
def codeBlockOf (info : Option String) (acc : List String) : MdBlock :=
  .code info (joinSep '\n' acc)
    ("```" ++ (match info with | some i => i | none => "") ++ "\n" ++ joinSep '\n' acc ++ "\n```")

/-- A heading block from a heading line. -/
def headingBlockOf (l : String) : MdBlock :=
  .heading (headingLevel l) (headingText l) l

/-- One line of tokenization. -/
def tokStep (st : TokState) (l : String) : TokState :=
  match st.mode with
  | .inFence info acc =>
    if isFenceCloseLine l then { blocks := st.blocks ++ [codeBlockOf info acc], mode := .normal }
    else { st with mode := .inFence info (acc ++ [l]) }
  | .inPara acc =>
    if isBlankLine l then { blocks := st.blocks ++ [paraBlockOf acc], mode := .normal }
    else if isHeadingLine l then
      { blocks := st.blocks ++ [paraBlockOf acc, headingBlockOf l], mode := .normal }
    else if isFenceLine l then
      { blocks := st.blocks ++ [paraBlockOf acc], mode := .inFence (fenceInfo l) [] }
    else { st with mode := .inPara (acc ++ [l]) }
  | .normal =>
    if isBlankLine l then st
    else if isHeadingLine l then { blocks := st.blocks ++ [headingBlockOf l], mode := .normal }
    else if isFenceLine l then { st with mode := .inFence (fenceInfo l) [] }
    else { st with mode := .inPara [l] }

/-- Flush the tokenizer at the end of input (an unclosed construct runs to
the end of the file). -/
def tokFinish (st : TokState) : List MdBlock :=
  match st.mode with
  | .normal => st.blocks
  | .inPara acc => st.blocks ++ [paraBlockOf acc]
  | .inFence info acc => st.blocks ++ [codeBlockOf info acc]

/-- The block tokenizer. -/
def mdTokenize (s : String) : List MdBlock :=
  tokFinish ((jsSplit '\n' s).foldl tokStep { blocks := [], mode := .normal })

/-- Embedding of `markdownToMessages` (src/src/markdown-parse.ts, lines
142-210): the remark block pass modelled by `mdTokenize`, the message
extraction by `parseBlocks`. -/
def markdownToMessages (dep : ParseDeps) (markdown : String) : Except String (List Message) :=
  parseBlocks dep (mdTokenize markdown)

/-! ## The serializer (src/src/markdown/serialize.ts) -/

/-- The fence-payload encoders: `JSON.stringify` of the compact payload
object, with the brotli-compress-then-base64 step folded in when the flag is
set.  Both are external to the embedded code and kept abstract. -/
structure SerializeDeps where
  callPayload : Bool → ToolCallData → String
  resultPayload : Bool → ToolResultData → String

/-- Embedding of `fence` (src/src/markdown/serialize.ts, lines 137-143). -/
def fenceBlock (name content : String) : String :=
  "\n```" ++ name ++ "\n" ++ content ++ "\n```\n"

/-- One part of a user message: only text parts are supported
(`shouldNeverHappen` is `Except.error`). -/
def renderUserPart : ContentPart → Except String String
  | .text t => .ok t
  | _ => .error "unsupported user message content part type"

/-- The `parts.forEach` of `serializeUserParts`: parts joined by one blank
line, none after the last one. -/
def goUserParts : List ContentPart → Except String String
  | [] => .ok ""
  | [p] => renderUserPart p
  | p :: rest => do
    let h ← renderUserPart p
    let t ← goUserParts rest
    .ok (h ++ "\n\n" ++ t)

/-- Embedding of `serializeUserParts` (src/src/markdown/serialize.ts,
lines 52-70). -/
def serializeUserParts : MessageContent → Except String String
  | .str s => .ok s
  | .parts ps => goUserParts ps

/-- One part of an assistant message: text verbatim, tool calls as a plain or
compressed fence, tool results unsupported. -/
def renderAssistantPart (dep : SerializeDeps) (compressed : Bool) :
    ContentPart → Except String String
  | .text t => .ok t
  | .toolCall d =>
    if compressed then .ok (fenceBlock "tool-call-compressed" (dep.callPayload true d))
    else .ok (fenceBlock "tool-call" (dep.callPayload false d))
  | .toolResult _ => .error "unsupported assistent message content part type"

/-- The `parts.forEach` of `serializeAssistantParts`. -/
def goAssistantParts (dep : SerializeDeps) (compressed : Bool) :
    List ContentPart → Except String String
  | [] => .ok ""
  | [p] => renderAssistantPart dep compressed p
  | p :: rest => do
    let h ← renderAssistantPart dep compressed p
    let t ← goAssistantParts dep compressed rest
    .ok (h ++ "\n\n" ++ t)

/-- Embedding of `serializeAssistantParts` (src/src/markdown/serialize.ts,
lines 72-110). -/
def serializeAssistantParts (dep : SerializeDeps) (content : MessageContent)
    (compressed : Bool) : Except String String :=
  match content with
  | .str s => .ok s
  | .parts ps => goAssistantParts dep compressed ps

/-- The `for p of parts` of `serializeToolResultParts`: fences concatenated
with no separator between them.  The ai SDK types the content of a tool
message as `Array<ToolResultPart>`; any other content shape is outside the
function's domain and modelled as an error. -/
def goToolParts (dep : SerializeDeps) (compressed : Bool) :
    List ContentPart → Except String String
  | [] => .ok ""
  | .toolResult d :: rest => do
    let t ← goToolParts dep compressed rest
    if compressed then .ok (fenceBlock "tool-result-compressed" (dep.resultPayload true d) ++ t)
    else .ok (fenceBlock "tool-result" (dep.resultPayload false d) ++ t)
  | _ => .error "tool message content must be an array of tool result parts"

/-- Embedding of `serializeToolResultParts` (src/src/markdown/serialize.ts,
lines 112-135). -/
def serializeToolResultParts (dep : SerializeDeps) (content : MessageContent)
    (compressed : Bool) : Except String String :=
  match content with
  | .str _ => .error "tool message content must be an array of tool result parts"
  | .parts ps => goToolParts dep compressed ps

/-- The role dispatch of `messagesToMarkdown`'s loop body.  A system
message's content is a string by the `CoreSystemMessage` type; a part-list
there is outside the domain and modelled as an error. -/
def messageBody (dep : SerializeDeps) (compressed : Bool) (m : Message) :
    Except String String :=
  match m.role with
  | .system =>
    match m.content with
    | .str s => .ok s
    | .parts _ => .error "system message content must be a string"
  | .user => serializeUserParts m.content
  | .assistant => serializeAssistantParts dep m.content compressed
  | .tool => serializeToolResultParts dep m.content compressed

/-- The `for msg of messages` accumulation loop of `messagesToMarkdown`. -/
def mdAccumLoop (dep : SerializeDeps) (compressed : Bool) (acc : String) :
    List Message → Except String String
  | [] => .ok acc
  | m :: rest =>
    match messageBody dep compressed m with
    | .error e => .error e
    | .ok b => mdAccumLoop dep compressed (acc ++ "## " ++ roleStr m.role ++ "\n\n" ++ b ++ "\n\n") rest

/-- Embedding of `messagesToMarkdown` (src/src/markdown/serialize.ts, lines
16-50): headings and bodies accumulated per message, then the whole string
trimmed at its end and closed with one newline. -/
def messagesToMarkdown (dep : SerializeDeps) (messages : List Message) (compressed : Bool) :
    Except String String :=
  match mdAccumLoop dep compressed "" messages with
  | .error e => .error e
  | .ok md => .ok (jsTrimEnd md ++ "\n")

/-! ## Spec-modelled parsing of compressed fences -/

/-- Payload of a `tool-call-compressed` fence. -/
structure CompressedCallPayload where
  toolCallId : String
  toolName : String
  compressedArgs : String
deriving DecidableEq, Repr

/-- Payload of a `tool-result-compressed` fence. -/
structure CompressedResultPayload where
  toolCallId : String
  toolName : String
  compressedResult : String
deriving DecidableEq, Repr

/-- Decoders for the compressed-fence pipeline, all external (JSON.parse,
schema validation, base64 plus brotli), kept abstract:
`callPayloadDec`/`resPayloadDec` parse and validate the fence body,
`decompress` decodes base64 and decompresses to UTF-8 JSON text, and
`argsDec`/`resultDec` parse that text into a JSON record. -/
structure CompressedParseDeps extends ParseDeps where
  callPayloadDec : String → Option CompressedCallPayload
  resPayloadDec : String → Option CompressedResultPayload
  decompress : String → Option String
  argsDec : String → Option JsonObj
  resultDec : String → Option JsonObj

/-- Modelled from the spec: the parse branch for fences tagged
`tool-call-compressed` / `tool-result-compressed` is missing from src — the
serializer (src/src/markdown/serialize.ts) emits such fences, but
`markdownToMessages` in src/src/markdown-parse.ts has no case for them.
Following spec section 4.1 step 3 and section 7: the payload carries
`toolCallId`/`toolName` plus a base64 `compressedArgs`/`compressedResult`
field; the payload is decompressed and the contained UTF-8 JSON parsed
before schema validation, yielding the corresponding part on success; a
decompression or parse failure degrades the block to an opaque text part
instead of aborting the whole parse.  Role enforcement mirrors the plain
fences, per the spec's part-placement invariants.  All other blocks behave
exactly as in `stepBlock`. -/
def stepBlockC (dep : CompressedParseDeps) (st : ParseState) (b : MdBlock) :
    Except String ParseState :=
  match b with
  | .code lang value raw =>
    match st.current with
    | none => .ok st
    | some sec =>
      if lang = some "tool-call-compressed" then
        if sec.role ≠ .assistant then .error "Tool calls are only allowed in assistant messages"
        else
          match dep.callPayloadDec value with
          | none => .ok (pushPart st (.text raw))
          | some pl =>
            match dep.decompress pl.compressedArgs with
            | none => .ok (pushPart st (.text raw))
            | some json =>
              match dep.argsDec json with
              | none => .ok (pushPart st (.text raw))
              | some args => .ok (pushPart st (.toolCall ⟨pl.toolCallId, pl.toolName, args⟩))
      else if lang = some "tool-result-compressed" then
        if sec.role ≠ .tool then .error "Tool results are only allowed in tool messages"
        else
          match dep.resPayloadDec value with
          | none => .ok (pushPart st (.text raw))
          | some pl =>
            match dep.decompress pl.compressedResult with
            | none => .ok (pushPart st (.text raw))
            | some json =>
              match dep.resultDec json with
              | none => .ok (pushPart st (.text raw))
              | some res => .ok (pushPart st (.toolResult ⟨pl.toolCallId, pl.toolName, res⟩))
      else stepBlock dep.toParseDeps st (.code lang value raw)
  | _ => stepBlock dep.toParseDeps st b

/-- The block loop of the spec-modelled parser with compressed-fence
support. -/
def foldBlocksC (dep : CompressedParseDeps) (st0 : Except String ParseState)
    (bs : List MdBlock) : Except String ParseState :=
  bs.foldl
    (fun st b =>
      match st with
      | .error e => .error e
      | .ok s => stepBlockC dep s b)
    st0

/-- The spec-modelled parser with compressed-fence support, on block input. -/
def parseBlocksC (dep : CompressedParseDeps) (bs : List MdBlock) :
    Except String (List Message) :=
  match foldBlocksC dep (.ok { secs := [], current := none }) bs with
  | .error e => .error e
  | .ok st => .ok (finishParse st)

/-! ## Plain messages: the fragment for the amended round-trip law -/

/-- Characters of a plain text line: alphanumerics, spaces and simple
punctuation; no markdown metacharacters, no whitespace other than space. -/
def plainChar (c : Char) : Bool :=
  c.isAlphanum || c = ' ' || c = '.' || c = ',' || c = '!' || c = '?'

/-- A plain single-line text: non-empty, every character plain, first
character alphanumeric, last character not a space. -/
def plainLineB (s : String) : Bool :=
  !s.data.isEmpty && s.data.all plainChar &&
    (match s.data.head? with | some c => c.isAlphanum | none => false) &&
    (match s.data.getLast? with | some c => decide (c ≠ ' ') | none => false)

/-- A message safe for the plain round trip: role user or assistant, content
a bare string that is empty or a plain line. -/
def plainMsg (m : Message) : Bool :=
  (decide (m.role = Role.user) || decide (m.role = Role.assistant)) &&
    (match m.content with
     | .str s => decide (s = "") || plainLineB s
     | .parts _ => false)

/-- The content string of a message (only used under `plainMsg`, where the
content is a bare string). -/
def contentStr (m : Message) : String :=
  match m.content with
  | .str s => s
  | .parts _ => ""

/-- The serializer's accumulated text for one plain message. -/
def msgChunk (m : Message) : String :=
  "## " ++ roleStr m.role ++ "\n\n" ++ contentStr m ++ "\n\n"

/-- The chunk minus its trailing newline run. -/
def chunkCore (m : Message) : String :=
  if contentStr m = "" then "## " ++ roleStr m.role
  else "## " ++ roleStr m.role ++ "\n\n" ++ contentStr m

/-- The lines one serialized plain message contributes. -/
def msgLines (m : Message) : List String :=
  ["## " ++ roleStr m.role, "", contentStr m, ""]

/-- The blocks the tokenizer emits for one serialized plain message. -/
def msgBlocks (m : Message) : List MdBlock :=
  if contentStr m = "" then
    [.heading 2 (some (roleStr m.role)) ("## " ++ roleStr m.role)]
  else
    [.heading 2 (some (roleStr m.role)) ("## " ++ roleStr m.role),
     .para (contentStr m) (contentStr m)]

/-- Concatenation of a list of strings. -/
def concatStrs : List String → String
  | [] => ""
  | s :: rest => s ++ concatStrs rest

/-- A string ending in a non-whitespace character. -/
def endsNonWs (x : String) : Prop :=
  ∃ l c, x.data = l ++ [c] ∧ wsChar c = false

/-! ## Shared concrete dependency instances (used by witnesses and
counterexamples) -/

/-- Trivial fence-payload decoders (never used on the inputs concerned). -/
def dep0P : ParseDeps := ⟨fun _ => none, fun _ => none⟩

/-- Trivial fence-payload encoders (never used on the inputs concerned). -/
def dep0S : SerializeDeps := ⟨fun _ _ => "", fun _ _ => ""⟩

/-- Concrete compressed-parse dependencies for witnesses: payload "P"
decodes, its compressed body "C" decompresses to "J", which parses to the
empty record; everything else fails. -/
def dep0C : CompressedParseDeps :=
  { callDec := fun _ => none, resDec := fun _ => none,
    callPayloadDec := fun x => if x = "P" then some ⟨"id1", "listFiles", "C"⟩ else none,
    resPayloadDec := fun x => if x = "P" then some ⟨"id1", "listFiles", "C"⟩ else none,
    decompress := fun x => if x = "C" then some "J" else none,
    argsDec := fun x => if x = "J" then some [] else none,
    resultDec := fun x => if x = "J" then some [] else none }

/-! # Theorems -/

/-! ## Generic helper lemmas -/

theorem data_append (a b : String) : (a ++ b).data = a.data ++ b.data := rfl

theorem getLast?_append_singleton {α} (l : List α) (a : α) :
    (l ++ [a]).getLast? = some a := by
  rw [List.getLast?_append_cons]
  rfl

/-! ## C2: the turn automaton -/

/-- C2: `determineNextTurn` returns the user's turn with a new heading when
the history is empty or the last message's role is assistant or system; the
user's turn without a new heading when the last message is a user message
with empty-string content; the assistant's turn without confirmation when
the last message's role is tool; and the assistant's turn with confirmation
required for a last user message with non-zero content length. -/
theorem determineNextTurn_rules (chat : List Message) :
    (chat = [] → determineNextTurn chat = .userTurn true) ∧
    (∀ pre m, chat = pre ++ [m] → (m.role = .assistant ∨ m.role = .system) →
      determineNextTurn chat = .userTurn true) ∧
    (∀ pre, chat = pre ++ [⟨.user, .str ""⟩] → determineNextTurn chat = .userTurn false) ∧
    (∀ pre m, chat = pre ++ [m] → m.role = .tool →
      determineNextTurn chat = .assistantTurn true) ∧
    (∀ pre m, chat = pre ++ [m] → m.role = .user → m.content.jsLength ≠ 0 →
      determineNextTurn chat = .assistantTurn false) := by
  refine ⟨?_, ?_, ?_, ?_, ?_⟩
  · rintro rfl; rfl
  · rintro pre m rfl hrole
    unfold determineNextTurn
    rw [getLast?_append_singleton]
    rcases hrole with h | h <;> simp [h]
  · rintro pre rfl
    unfold determineNextTurn
    rw [getLast?_append_singleton]
    rfl
  · rintro pre m rfl hrole
    unfold determineNextTurn
    rw [getLast?_append_singleton]
    simp [hrole]
  · rintro pre m rfl hrole hlen
    unfold determineNextTurn
    rw [getLast?_append_singleton]
    simp [hrole, hlen]

/-- Witness for C2: all five rules evaluated at concrete histories. -/
theorem determineNextTurn_rules_witness :
    determineNextTurn [] = .userTurn true ∧
    determineNextTurn [⟨.assistant, .str "x"⟩] = .userTurn true ∧
    determineNextTurn [⟨.system, .str "x"⟩] = .userTurn true ∧
    determineNextTurn [⟨.user, .str ""⟩] = .userTurn false ∧
    determineNextTurn [⟨.tool, .parts []⟩] = .assistantTurn true ∧
    determineNextTurn [⟨.user, .str "hi"⟩] = .assistantTurn false :=
  ⟨(determineNextTurn_rules []).1 rfl,
   (determineNextTurn_rules _).2.1 [] _ rfl (Or.inl rfl),
   (determineNextTurn_rules _).2.1 [] _ rfl (Or.inr rfl),
   (determineNextTurn_rules _).2.2.1 [] rfl,
   (determineNextTurn_rules _).2.2.2.1 [] _ rfl rfl,
   (determineNextTurn_rules _).2.2.2.2 [] _ rfl rfl (by decide)⟩

/-! ## C10: empty-array content behaves like empty-string content -/

/-- C10: a last user message whose content is an empty part array is treated
exactly like one with empty-string content — the user's turn with no new
heading — because the emptiness test is on the JS `content.length`, which is
zero for both. -/
theorem determineNextTurn_empty_array_content (pre : List Message) :
    determineNextTurn (pre ++ [⟨.user, .parts []⟩]) =
      determineNextTurn (pre ++ [⟨.user, .str ""⟩]) ∧
    determineNextTurn (pre ++ [⟨.user, .parts []⟩]) = .userTurn false ∧
    MessageContent.jsLength (.parts []) = 0 ∧
    MessageContent.jsLength (.str "") = 0 := by
  refine ⟨?_, ?_, rfl, rfl⟩ <;>
    · unfold determineNextTurn
      rw [getLast?_append_singleton]
      try rw [getLast?_append_singleton]
      rfl

/-! ## C7: the project-root traversal guard -/

/-- C7 (code bug): `ensureProjectPath` accepts a path that resolves outside
the project root whenever the escaping location shares the root as a string
prefix: from root `/home/user/project`, the relative path
`../project-evil/x` resolves to `/home/user/project-evil/x`, which is not
inside the root, yet the guard returns it as ok because the string-prefix
test `abs.startsWith(projectRoot)` passes. -/
theorem ensureProjectPath_escape_accepted :
    ensureProjectPath "/home/user/project" "../project-evil/x" =
      .ok "/home/user/project-evil/x" ∧
    ¬ insideRoot "/home/user/project" "/home/user/project-evil/x" := by
  constructor
  · rfl
  · decide

/-! ## C8: the gitignore compiler -/

theorem strExt {a b : String} (h : a.data = b.data) : a = b := by
  cases a; cases b; cases h; rfl

theorem isPrefixOf_append_self {α} [DecidableEq α] (l t : List α) :
    l.isPrefixOf (l ++ t) = true := by
  induction l with
  | nil => simp [List.isPrefixOf]
  | cons a as ih => simp [List.isPrefixOf, ih]

theorem jsStartsWith_append_self (p s : String) : jsStartsWith (p ++ s) p = true := by
  unfold jsStartsWith
  rw [data_append]
  exact isPrefixOf_append_self _ _

theorem strAppend_assoc (a b c : String) : a ++ b ++ c = a ++ (b ++ c) :=
  strExt (by simp [data_append, List.append_assoc])

/-- `expandGitignoreLine`, re-expressed through the named per-line
attributes, by exhaustive case analysis over its tests. -/
theorem expandGitignoreLine_cases (raw : String) :
    expandGitignoreLine raw =
      if lineIsDirRule raw then
        if lineIsNeg raw then ["!" ++ lineBase raw, "!" ++ (lineBase raw ++ "/**")]
        else [lineBase raw, lineBase raw ++ "/**"]
      else
        if lineIsNeg raw then ["!" ++ lineBase raw] else [lineBase raw] := by
  simp only [expandGitignoreLine, lineBase, linePat, lineIsDirRule, lineAnchored,
    strippedPat, lineIsNeg]
  split_ifs <;> simp_all

/-- C8 counterexample: the unanchored directory line `build/` compiles to
the recursive patterns `**/build` and `**/build/**`, not to the anchored
`build` and `build/**` the claim states (those are produced by `/build/`). -/
theorem parseGitignore_build_slash_counterexample :
    parseGitignore "build/" = ["**/build", "**/build/**"] ∧
    parseGitignore "build/" ≠ ["build", "build/**"] ∧
    parseGitignore "/build/" = ["build", "build/**"] := by
  refine ⟨rfl, ?_, rfl⟩
  decide

/-- C8 amended: `"build/"` maps to `["**/build","**/build/**"]` (an
unanchored rule gets the recursive `**/` base; the claimed `["build",
"build/**"]` is produced by the anchored `"/build/"`); the other examples
are as claimed: `"*.log"` to `["**/*.log"]`, `"/config.json"` to
`["config.json"]`, `"!dir/"` to `["!**/dir","!**/dir/**"]`, and `""` to
`[]`.  In general a directory rule (after negation/anchor stripping, a
pattern ending with `/` or containing neither `*` nor `.`) expands to
exactly two patterns — a base path and the base path plus `/**` — and any
other rule to exactly one, with negation distributed over all patterns of
the line. -/
theorem parseGitignore_amended :
    parseGitignore "build/" = ["**/build", "**/build/**"] ∧
    parseGitignore "*.log" = ["**/*.log"] ∧
    parseGitignore "/config.json" = ["config.json"] ∧
    parseGitignore "!dir/" = ["!**/dir", "!**/dir/**"] ∧
    parseGitignore "" = [] ∧
    (∀ raw, lineIsDirRule raw = true →
      ∃ base, expandGitignoreLine raw =
        if lineIsNeg raw then ["!" ++ base, "!" ++ base ++ "/**"]
        else [base, base ++ "/**"]) ∧
    (∀ raw, lineIsDirRule raw = false →
      ∃ p, expandGitignoreLine raw = [p] ∧
        (lineIsNeg raw = true → jsStartsWith p "!" = true)) := by
  refine ⟨rfl, rfl, rfl, rfl, rfl, ?_, ?_⟩
  · intro raw hdir
    rw [expandGitignoreLine_cases raw, hdir]
    simp only [if_true]
    cases hneg : lineIsNeg raw
    · exact ⟨lineBase raw, rfl⟩
    · exact ⟨lineBase raw, by rw [strAppend_assoc]⟩
  · intro raw hdir
    rw [expandGitignoreLine_cases raw, hdir]
    simp only [Bool.false_eq_true, if_false]
    cases hneg : lineIsNeg raw
    · exact ⟨lineBase raw, rfl, fun h => by cases h⟩
    · exact ⟨"!" ++ lineBase raw, rfl, fun _ => jsStartsWith_append_self "!" (lineBase raw)⟩

/-- Witness for C8's amended general rules, at one directory line and one
file line. -/
theorem parseGitignore_amended_witness :
    (∃ base, expandGitignoreLine "!dir/" =
      if lineIsNeg "!dir/" then ["!" ++ base, "!" ++ base ++ "/**"]
      else [base, base ++ "/**"]) ∧
    (∃ p, expandGitignoreLine "*.log" = [p] ∧
      (lineIsNeg "*.log" = true → jsStartsWith p "!" = true)) :=
  ⟨parseGitignore_amended.2.2.2.2.2.1 "!dir/" (by decide),
   parseGitignore_amended.2.2.2.2.2.2 "*.log" (by decide)⟩

/-! ## C9: an add patch on an existing file -/

/-- C9: an `add` patch whose in-root target path already exists yields the
failure result with reason "file already exists" and leaves the filesystem
(in particular the existing file's contents) unmodified. -/
theorem applyAddPatch_existing_file (fs : FileSystem) (cwd : String)
    (patch : AddPatch) (p : String)
    (hpath : ensureProjectPath cwd patch.path = .ok p)
    (hexists : (fs.lookup p).isSome = true) :
    applyAddPatch fs cwd patch =
      .ok ({ ok := false, path := patch.path, status := "add-failed",
             reason := some "file already exists" }, fs) := by
  unfold applyAddPatch writeFileWx
  rw [hpath]
  simp [hexists]

/-- Witness for C9: adding `a.txt` over an existing `/r/a.txt` fails with
the conflict reason and leaves the filesystem unchanged. -/
theorem applyAddPatch_existing_file_witness :
    applyAddPatch [("/r/a.txt", "old")] "/r" ⟨"a.txt", "new"⟩ =
      .ok ({ ok := false, path := "a.txt", status := "add-failed",
             reason := some "file already exists" }, [("/r/a.txt", "old")]) :=
  applyAddPatch_existing_file [("/r/a.txt", "old")] "/r" ⟨"a.txt", "new"⟩
    "/r/a.txt" (by rfl) (by rfl)

/-! ## C3: the update-patch engine -/

theorem splitCharList_ne_nil (sep : Char) (l : List Char) : splitCharList sep l ≠ [] := by
  induction l with
  | nil => simp [splitCharList]
  | cons c cs ih =>
    simp only [splitCharList]
    split
    · simp
    · split <;> simp

theorem length_jsSplit_pos (sep : Char) (s : String) : 0 < (jsSplit sep s).length := by
  unfold jsSplit
  rw [List.length_map]
  exact List.length_pos.mpr (splitCharList_ne_nil sep s.data)

theorem isPrefixOf_iff_take {α} [DecidableEq α] (l₁ l₂ : List α) :
    l₁.isPrefixOf l₂ = true ↔ (l₁.length ≤ l₂.length ∧ l₂.take l₁.length = l₁) := by
  induction l₁ generalizing l₂ with
  | nil => simp [List.isPrefixOf]
  | cons a as ih =>
    cases l₂ with
    | nil => simp [List.isPrefixOf]
    | cons b bs =>
      simp only [List.isPrefixOf, Bool.and_eq_true, beq_iff_eq, ih, List.length_cons,
        List.take_succ_cons, List.cons.injEq]
      constructor
      · rintro ⟨rfl, h1, h2⟩
        exact ⟨by omega, rfl, h2⟩
      · rintro ⟨h1, rfl, h2⟩
        exact ⟨rfl, by omega, h2⟩

theorem filter_false_of {α} (l : List α) (p : α → Bool) (h : ∀ a ∈ l, p a = false) :
    l.filter p = [] := by
  rw [List.filter_eq_nil_iff]
  intro a ha
  simp [h a ha]

theorem filter_range_shrink (p : Nat → Bool) (k₁ k₂ : Nat) (hk : k₂ ≤ k₁)
    (h : ∀ i, k₂ ≤ i → p i = false) :
    (List.range k₁).filter p = (List.range k₂).filter p := by
  obtain ⟨d, rfl⟩ : ∃ d, k₁ = k₂ + d := ⟨k₁ - k₂, by omega⟩
  rw [List.range_add, List.filter_append]
  have hnil : ((List.range d).map (k₂ + ·)).filter p = [] := by
    apply filter_false_of
    intro a ha
    rcases List.mem_map.mp ha with ⟨j, _, rfl⟩
    exact h _ (by omega)
  rw [hnil, List.append_nil]

theorem matchAt_map_iff (f : String → String) (cl sl : List String) (i : Nat)
    (hsl : sl ≠ []) :
    matchAt (cl.map f) (sl.map f) i = true ↔
      (i + sl.length ≤ cl.length ∧ ((cl.drop i).take sl.length).map f = sl.map f) := by
  unfold matchAt
  rw [isPrefixOf_iff_take]
  rw [← List.map_drop, List.length_map, List.length_map, List.length_drop]
  have hpos : 0 < sl.length := List.length_pos.mpr hsl
  constructor
  · rintro ⟨h1, h2⟩
    refine ⟨by omega, ?_⟩
    rw [List.map_take]
    exact h2
  · rintro ⟨h1, h2⟩
    refine ⟨by omega, ?_⟩
    rw [← List.map_take]
    exact h2

theorem matchAt_eq_decide (content search : String) (hs : jsSplit '\n' search ≠ [])
    (i : Nat) :
    matchAt ((jsSplit '\n' content).map jsTrim) ((jsSplit '\n' search).map jsTrim) i =
      decide (matchesAt content search i) := by
  have h := matchAt_map_iff jsTrim (jsSplit '\n' content) (jsSplit '\n' search) i hs
  by_cases hp : matchesAt content search i
  · simp [h.mpr hp, hp]
  · have hm : ¬ (matchAt ((jsSplit '\n' content).map jsTrim)
        ((jsSplit '\n' search).map jsTrim) i = true) := fun hx => hp (h.mp hx)
    simp only [Bool.not_eq_true] at hm
    simp [hm, hp]

theorem findMatchStarts_eq (content search : String) (hs : jsSplit '\n' search ≠ []) :
    findMatchStarts ((jsSplit '\n' content).map jsTrim)
        ((jsSplit '\n' search).map jsTrim) =
      allMatchStarts content search := by
  unfold findMatchStarts allMatchStarts
  have hfun : matchAt ((jsSplit '\n' content).map jsTrim)
      ((jsSplit '\n' search).map jsTrim) =
      fun i => decide (matchesAt content search i) :=
    funext (matchAt_eq_decide content search hs)
  rw [hfun, List.length_map, List.length_map]
  have hpos : 0 < (jsSplit '\n' search).length := List.length_pos.mpr hs
  by_cases hmn : (jsSplit '\n' search).length ≤ (jsSplit '\n' content).length
  · rw [if_pos hmn]
    refine (filter_range_shrink _ _ _ (by omega) ?_).symm
    intro i hi
    apply decide_eq_false
    intro hmatch
    have h1 : i + (jsSplit '\n' search).length ≤ (jsSplit '\n' content).length := hmatch.1
    omega
  · rw [if_neg hmn]
    symm
    apply filter_false_of
    intro a _
    apply decide_eq_false
    intro hmatch
    have h1 : a + (jsSplit '\n' search).length ≤ (jsSplit '\n' content).length := hmatch.1
    omega

theorem mem_allMatchStarts (content search : String) (i : Nat)
    (h : matchesAt content search i) : i ∈ allMatchStarts content search := by
  unfold allMatchStarts
  refine List.mem_filter.mpr ⟨List.mem_range.mpr ?_, decide_eq_true h⟩
  have h1 : i + (jsSplit '\n' search).length ≤ (jsSplit '\n' content).length := h.1
  omega

/-- C3: for every file content and every update patch with non-empty search
text, `applyPatchToString` compares file lines to search lines after
per-line whitespace trimming (`matchesAt`); the set of matched start indices
is exactly `allMatchStarts`; when no contiguous run matches it returns the
reportable failure (never a silent no-op); when one or more runs match,
every matching occurrence is replaced, the occurrences are processed in
decreasing start-index order, and the spliced-in lines are the original
(non-normalized) replacement lines. -/
theorem applyPatchToString_spec (content : String) (patch : UpdatePatch)
    (hs : patch.search ≠ "") :
    (∀ i, i ∈ allMatchStarts content patch.search ↔ matchesAt content patch.search i) ∧
    ((∀ i, ¬ matchesAt content patch.search i) ↔
      applyPatchToString content patch = .error "did not find a match for the search lines") ∧
    ((∃ i, matchesAt content patch.search i) →
      applyPatchToString content patch =
        .ok (joinSep '\n'
          ((allMatchStarts content patch.search).reverse.foldl
            (fun acc s =>
              spliceList acc s (jsSplit '\n' patch.search).length
                (jsSplit '\n' patch.replace))
            (jsSplit '\n' content)))) := by
  have hpos : 0 < (jsSplit '\n' patch.search).length := length_jsSplit_pos _ _
  have hsl : jsSplit '\n' patch.search ≠ [] := List.length_pos.mp hpos
  have hfm := findMatchStarts_eq content patch.search hsl
  refine ⟨?_, ?_, ?_⟩
  · intro i
    constructor
    · intro hi
      have := (List.mem_filter.mp hi).2
      exact of_decide_eq_true this
    · exact mem_allMatchStarts content patch.search i
  · simp only [applyPatchToString]
    rw [List.length_map, hfm, if_neg (by omega)]
    constructor
    · intro hnone
      have hempty : allMatchStarts content patch.search = [] := by
        apply filter_false_of
        intro a _
        exact decide_eq_false (hnone a)
      rw [if_pos hempty]
    · intro herr i hmatch
      by_cases hm : allMatchStarts content patch.search = []
      · have hi := mem_allMatchStarts content patch.search i hmatch
        rw [hm] at hi
        cases hi
      · rw [if_neg hm] at herr
        cases herr
  · rintro ⟨i, hmatch⟩
    have hm : allMatchStarts content patch.search ≠ [] := by
      intro h
      have hi := mem_allMatchStarts content patch.search i hmatch
      rw [h] at hi
      cases hi
    simp only [applyPatchToString]
    rw [List.length_map, hfm, if_neg (by omega), if_neg hm]

/-- Witness for C3: a two-occurrence, indentation-shifted search on a
concrete file, and the no-match failure on another. -/
theorem applyPatchToString_spec_witness :
    ((∃ i, matchesAt "a\n  b\nc\nb" "b" i) →
      applyPatchToString "a\n  b\nc\nb" ⟨"f.txt", "b", "X"⟩ =
        .ok (joinSep '\n'
          ((allMatchStarts "a\n  b\nc\nb" "b").reverse.foldl
            (fun acc s =>
              spliceList acc s (jsSplit '\n' "b").length (jsSplit '\n' "X"))
            (jsSplit '\n' "a\n  b\nc\nb")))) ∧
    applyPatchToString "a\n  b\nc\nb" ⟨"f.txt", "b", "X"⟩ = .ok "a\nX\nc\nX" ∧
    ((∀ i, ¬ matchesAt "a\nb" "zzz" i) ↔
      applyPatchToString "a\nb" ⟨"f.txt", "zzz", "X"⟩ =
        .error "did not find a match for the search lines") := by
  refine ⟨(applyPatchToString_spec "a\n  b\nc\nb" ⟨"f.txt", "b", "X"⟩ (by decide)).2.2,
    ?_, (applyPatchToString_spec "a\nb" ⟨"f.txt", "zzz", "X"⟩ (by decide)).2.1⟩
  have h := (applyPatchToString_spec "a\n  b\nc\nb" ⟨"f.txt", "b", "X"⟩ (by decide)).2.2
    ⟨1, by decide⟩
  rw [h]
  rfl

/-! ## C4: role headings open sections; other headings are inert -/

/-- C4 counterexample: a `## system` heading does not open a section — the
parser's `VALID_ROLES` are only user, assistant and tool — so the input
`## system` + paragraph parses to no message at all, where the claim
predicts one system message. -/
theorem system_heading_opens_no_section :
    markdownToMessages dep0P "## system\n\nhi\n" = .ok [] ∧
    checkRoleHeading (some "system") = none ∧
    jsToLower (jsTrim "system") = "system" := by
  refine ⟨rfl, rfl, rfl⟩

theorem stepBlock_no_section (dep : ParseDeps) (st : ParseState) (b : MdBlock)
    (hb : opensSection b = false) (hcur : st.current = none) :
    stepBlock dep st b = .ok st := by
  have hpush : ∀ p, pushPart st p = st := by
    intro p
    unfold pushPart
    rw [hcur]
  cases b with
  | heading d fct raw =>
    rcases d with _ | _ | _ | n
    · simp only [stepBlock]
      rw [hpush]
    · simp only [stepBlock]
      rw [hpush]
    · simp only [opensSection] at hb
      cases hcr : checkRoleHeading fct with
      | some r =>
        rw [hcr] at hb
        simp at hb
      | none =>
        simp only [stepBlock]
        rw [hcr, hpush]
    · simp only [stepBlock]
      rw [hpush]
  | code lang v raw => simp only [stepBlock, hcur]
  | para text raw =>
    simp only [stepBlock]
    rw [hpush]
  | other raw =>
    simp only [stepBlock]
    rw [hpush]

theorem foldBlocks_no_section (dep : ParseDeps) :
    ∀ (bs : List MdBlock), (∀ x ∈ bs, opensSection x = false) →
    foldBlocks dep (.ok { secs := [], current := none }) bs =
      .ok { secs := [], current := none } := by
  intro bs
  induction bs with
  | nil =>
    intro _
    rfl
  | cons b rest ih =>
    intro h
    have hstep : foldBlocks dep (.ok { secs := [], current := none }) (b :: rest) =
        foldBlocks dep (stepBlock dep { secs := [], current := none } b) rest := rfl
    rw [hstep, stepBlock_no_section dep _ b (h b (by simp)) rfl]
    exact ih fun x hx => h x (by simp [hx])

/-- C4 amended: the parser opens a new section exactly at each level-2
heading whose trimmed, case-insensitive text is one of user, assistant or
tool (system is not recognized), taking that text as the section role;
every other heading, and all content before the first recognized heading,
is inert text — a non-opening heading is folded into the current section as
a text part carrying the raw slice, and every non-opening block (heading,
fence, paragraph or other) is discarded when no section is open, so a run
of blocks before the first recognized heading leaves the parse state
untouched. -/
theorem role_heading_sections (dep : ParseDeps) (st : ParseState) (d : Nat)
    (fct : Option String) (raw : String) (b : MdBlock) (bs : List MdBlock) :
    (∀ t r, checkRoleHeading (some t) = some r ↔
      (jsToLower (jsTrim t) = roleStr r ∧ r ≠ .system)) ∧
    checkRoleHeading none = none ∧
    (∀ r, checkRoleHeading fct = some r →
      stepBlock dep st (.heading 2 fct raw) =
        .ok { secs := st.secs ++ st.current.toList,
              current := some { role := r, parts := [] } }) ∧
    (checkRoleHeading fct = none →
      stepBlock dep st (.heading 2 fct raw) = .ok (pushPart st (.text raw))) ∧
    (d ≠ 2 → stepBlock dep st (.heading d fct raw) = .ok (pushPart st (.text raw))) ∧
    (st.current = none → pushPart st (.text raw) = st) ∧
    (opensSection b = false → st.current = none → stepBlock dep st b = .ok st) ∧
    ((∀ x ∈ bs, opensSection x = false) →
      foldBlocks dep (.ok { secs := [], current := none }) bs =
        .ok { secs := [], current := none }) := by
  refine ⟨?_, rfl, ?_, ?_, ?_, ?_, ?_, ?_⟩
  · intro t r
    simp only [checkRoleHeading]
    have hc : VALID_ROLES.contains (jsToLower (jsTrim t)) =
        ((jsToLower (jsTrim t) == "user") ||
          ((jsToLower (jsTrim t) == "assistant") ||
            ((jsToLower (jsTrim t) == "tool") || false))) := rfl
    by_cases h1 : jsToLower (jsTrim t) = "user"
    · rw [if_pos (by simp [hc, h1, VALID_ROLES]), if_pos h1]
      cases r <;> simp [roleStr, h1]
    · by_cases h2 : jsToLower (jsTrim t) = "assistant"
      · rw [if_pos (by simp [hc, h2, VALID_ROLES]), if_neg h1, if_pos h2]
        cases r <;> simp [roleStr, h2]
      · by_cases h3 : jsToLower (jsTrim t) = "tool"
        · rw [if_pos (by simp [hc, h3, VALID_ROLES]), if_neg h1, if_neg h2]
          cases r <;> simp [roleStr, h3]
        · rw [if_neg (by simp [hc, h1, h2, h3, VALID_ROLES])]
          cases r <;> simp [roleStr] <;> simp_all
  · intro r hr
    simp only [stepBlock]
    rw [hr]
  · intro hr
    simp only [stepBlock]
    rw [hr]
  · intro hd
    rcases d with _ | _ | _ | n
    · rfl
    · rfl
    · exact absurd rfl hd
    · rfl
  · intro h
    unfold pushPart
    rw [h]
  · intro hb hcur
    exact stepBlock_no_section dep st b hb hcur
  · intro hbs
    exact foldBlocks_no_section dep bs hbs

/-- Witness for C4's amended rules at concrete inputs, including the
discarding of pre-section content. -/
theorem role_heading_sections_witness :
    (checkRoleHeading (some " USER ") = some Role.user ↔
      (jsToLower (jsTrim " USER ") = roleStr Role.user ∧ Role.user ≠ Role.system)) ∧
    stepBlock dep0P { secs := [], current := none } (.heading 2 (some "tool") "## tool") =
      .ok { secs := [], current := some { role := Role.tool, parts := [] } } ∧
    stepBlock dep0P { secs := [], current := none } (.heading 2 (some "intro") "## intro") =
      .ok (pushPart { secs := [], current := none } (.text "## intro")) ∧
    stepBlock dep0P { secs := [], current := none } (.heading 3 (some "user") "### user") =
      .ok (pushPart { secs := [], current := none } (.text "### user")) ∧
    pushPart { secs := [], current := none } (.text "### user") =
      { secs := [], current := none } ∧
    stepBlock dep0P { secs := [], current := none } (.para "intro text" "intro text") =
      .ok { secs := [], current := none } ∧
    foldBlocks dep0P (.ok { secs := [], current := none })
      [.para "intro text" "intro text", .code (some "js") "v" "raw",
       .heading 1 (some "Title") "# Title", .other "> quote"] =
      .ok { secs := [], current := none } := by
  refine ⟨(role_heading_sections dep0P ⟨[], none⟩ 2 none "" (.other "") []).1 " USER "
    Role.user, ?_, ?_, ?_, ?_, ?_, ?_⟩
  · exact (role_heading_sections dep0P ⟨[], none⟩ 2 (some "tool") "## tool"
      (.other "") []).2.2.1 Role.tool (by rfl)
  · exact (role_heading_sections dep0P ⟨[], none⟩ 2 (some "intro") "## intro"
      (.other "") []).2.2.2.1 (by rfl)
  · exact (role_heading_sections dep0P ⟨[], none⟩ 3 (some "user") "### user"
      (.other "") []).2.2.2.2.1 (by decide)
  · exact (role_heading_sections dep0P ⟨[], none⟩ 3 (some "user") "### user"
      (.other "") []).2.2.2.2.2.1 rfl
  · exact (role_heading_sections dep0P ⟨[], none⟩ 2 none ""
      (.para "intro text" "intro text") []).2.2.2.2.2.2.1 (by rfl) rfl
  · exact (role_heading_sections dep0P ⟨[], none⟩ 2 none "" (.other "")
      [.para "intro text" "intro text", .code (some "js") "v" "raw",
       .heading 1 (some "Title") "# Title", .other "> quote"]).2.2.2.2.2.2.2
      (by decide)

/-! ## C5: misplaced tool fences abort the parse -/

theorem pushPart_current (st : ParseState) (sec : MsgSection) (p : ContentPart)
    (hcur : st.current = some sec) :
    (pushPart st p).current = some { role := sec.role, parts := sec.parts ++ [p] } := by
  unfold pushPart
  rw [hcur]

theorem foldBlocks_error (dep : ParseDeps) (e : String) (bs : List MdBlock) :
    foldBlocks dep (.error e) bs = .error e := by
  induction bs with
  | nil => rfl
  | cons b bs ih => exact ih

theorem foldBlocks_append (dep : ParseDeps) (st0 : Except String ParseState)
    (bs1 bs2 : List MdBlock) :
    foldBlocks dep st0 (bs1 ++ bs2) = foldBlocks dep (foldBlocks dep st0 bs1) bs2 := by
  unfold foldBlocks
  exact List.foldl_append ..

theorem stepBlock_role_preserved (dep : ParseDeps) (st : ParseState) (b : MdBlock)
    (sec : MsgSection) (hcur : st.current = some sec) (hb : opensSection b = false) :
    (∃ e, stepBlock dep st b = .error e) ∨
    (∃ st' ps, stepBlock dep st b = .ok st' ∧
      st'.current = some { role := sec.role, parts := ps }) := by
  cases b with
  | heading d fct raw =>
    rcases d with _ | _ | _ | n
    · exact Or.inr ⟨_, _, rfl, pushPart_current st sec _ hcur⟩
    · exact Or.inr ⟨_, _, rfl, pushPart_current st sec _ hcur⟩
    · simp only [opensSection] at hb
      cases hcr : checkRoleHeading fct with
      | some r =>
        rw [hcr] at hb
        simp at hb
      | none =>
        refine Or.inr ⟨_, _, ?_, pushPart_current st sec (.text raw) hcur⟩
        simp only [stepBlock]
        rw [hcr]
    · exact Or.inr ⟨_, _, rfl, pushPart_current st sec _ hcur⟩
  | code lang v raw =>
    simp only [stepBlock, hcur]
    by_cases h1 : lang = some "tool-call"
    · rw [if_pos h1]
      by_cases hr : sec.role = Role.assistant
      · rw [if_neg (by simp [hr])]
        cases hd : dep.callDec v with
        | none => exact Or.inl ⟨_, rfl⟩
        | some d => exact Or.inr ⟨_, _, rfl, pushPart_current st sec _ hcur⟩
      · rw [if_pos hr]
        exact Or.inl ⟨_, rfl⟩
    · rw [if_neg h1]
      by_cases h2 : lang = some "tool-result"
      · rw [if_pos h2]
        by_cases hr : sec.role = Role.tool
        · rw [if_neg (by simp [hr])]
          cases hd : dep.resDec v with
          | none => exact Or.inl ⟨_, rfl⟩
          | some d => exact Or.inr ⟨_, _, rfl, pushPart_current st sec _ hcur⟩
        · rw [if_pos hr]
          exact Or.inl ⟨_, rfl⟩
      · rw [if_neg h2]
        exact Or.inr ⟨_, _, rfl, pushPart_current st sec _ hcur⟩
  | para text raw => exact Or.inr ⟨_, _, rfl, pushPart_current st sec _ hcur⟩
  | other raw => exact Or.inr ⟨_, _, rfl, pushPart_current st sec _ hcur⟩

theorem foldBlocks_role_preserved (dep : ParseDeps) (bs : List MdBlock)
    (hbs : ∀ b ∈ bs, opensSection b = false) :
    ∀ st sec, st.current = some sec →
    (∃ e, foldBlocks dep (.ok st) bs = .error e) ∨
    (∃ st' ps, foldBlocks dep (.ok st) bs = .ok st' ∧
      st'.current = some { role := sec.role, parts := ps }) := by
  induction bs with
  | nil =>
    intro st sec hcur
    exact Or.inr ⟨st, sec.parts, rfl, by rw [hcur]⟩
  | cons b bs ih =>
    intro st sec hcur
    have hb := hbs b (by simp)
    have hrest : ∀ x ∈ bs, opensSection x = false := fun x hx => hbs x (by simp [hx])
    have hstep : foldBlocks dep (.ok st) (b :: bs) = foldBlocks dep (stepBlock dep st b) bs := rfl
    rcases stepBlock_role_preserved dep st b sec hcur hb with ⟨e, he⟩ | ⟨st', ps, hok, hcur'⟩
    · left
      rw [hstep, he]
      exact ⟨e, foldBlocks_error dep e bs⟩
    · rw [hstep, hok]
      exact ih hrest st' { role := sec.role, parts := ps } hcur'

/-- The common core: a heading opening a section of role `r`, followed (with
no intervening section opener) by a fence on which the step function is
known to throw for sections of role `r`, makes the whole parse fail. -/
theorem misplaced_fence_core (dep : ParseDeps) (pre mid post : List MdBlock)
    (fct : Option String) (hraw : String) (c : MdBlock) (r : Role)
    (hrole : checkRoleHeading fct = some r)
    (hmid : ∀ b ∈ mid, opensSection b = false)
    (hstep : ∀ st2 sec, st2.current = some sec → sec.role = r →
      ∃ e, stepBlock dep st2 c = .error e) :
    ∃ e, parseBlocks dep (pre ++ [.heading 2 fct hraw] ++ mid ++ [c] ++ post) = .error e := by
  suffices h : ∃ e, foldBlocks dep (.ok { secs := [], current := none })
      (pre ++ [.heading 2 fct hraw] ++ mid ++ [c] ++ post) = .error e by
    rcases h with ⟨e, he⟩
    refine ⟨e, ?_⟩
    unfold parseBlocks
    rw [he]
  rw [foldBlocks_append, foldBlocks_append, foldBlocks_append, foldBlocks_append]
  cases hpre : foldBlocks dep (.ok { secs := [], current := none }) pre with
  | error e =>
    rw [foldBlocks_error, foldBlocks_error, foldBlocks_error, foldBlocks_error]
    exact ⟨e, rfl⟩
  | ok st =>
    have hhead : foldBlocks dep (.ok st) [MdBlock.heading 2 fct hraw] =
        .ok { secs := st.secs ++ st.current.toList,
              current := some { role := r, parts := [] } } := by
      show stepBlock dep st (.heading 2 fct hraw) = _
      simp only [stepBlock]
      rw [hrole]
    rw [hhead]
    rcases foldBlocks_role_preserved dep mid hmid
        { secs := st.secs ++ st.current.toList, current := some { role := r, parts := [] } }
        { role := r, parts := [] } rfl with ⟨e, he⟩ | ⟨st2, ps, hok, hcur2⟩
    · rw [he, foldBlocks_error, foldBlocks_error]
      exact ⟨e, rfl⟩
    · rw [hok]
      rcases hstep st2 _ hcur2 rfl with ⟨e, he⟩
      have hc : foldBlocks dep (.ok st2) [c] = .error e := he
      rw [hc, foldBlocks_error]
      exact ⟨e, rfl⟩

/-- C5: a fenced block tagged `tool-call` inside a section whose role is not
assistant, and one tagged `tool-result` inside a section whose role is not
tool, make the whole parse fail with an error; the misplaced fence is never
silently turned into a part. -/
theorem misplaced_fence_fails (dep : ParseDeps) (pre mid post : List MdBlock)
    (fct : Option String) (hraw craw v : String) (r : Role)
    (hrole : checkRoleHeading fct = some r)
    (hmid : ∀ b ∈ mid, opensSection b = false) :
    (r ≠ .assistant →
      ∃ e, parseBlocks dep
        (pre ++ [.heading 2 fct hraw] ++ mid ++ [.code (some "tool-call") v craw] ++ post) =
        .error e) ∧
    (r ≠ .tool →
      ∃ e, parseBlocks dep
        (pre ++ [.heading 2 fct hraw] ++ mid ++ [.code (some "tool-result") v craw] ++ post) =
        .error e) := by
  constructor
  · intro hne
    apply misplaced_fence_core dep pre mid post fct hraw _ r hrole hmid
    intro st2 sec hcur hsecrole
    refine ⟨"Tool calls are only allowed in assistant messages", ?_⟩
    simp only [stepBlock, hcur]
    simp [hsecrole, hne]
  · intro hne
    apply misplaced_fence_core dep pre mid post fct hraw _ r hrole hmid
    intro st2 sec hcur hsecrole
    refine ⟨"Tool results are only allowed in tool messages", ?_⟩
    simp only [stepBlock, hcur]
    simp [hsecrole, hne]

/-- Witness for C5: a `tool-call` fence under `## user` and a `tool-result`
fence under `## assistant` both abort the parse. -/
theorem misplaced_fence_fails_witness :
    (∃ e, parseBlocks dep0P
      ([] ++ [.heading 2 (some "user") "## user"] ++ [] ++
        [.code (some "tool-call") "x" "raw"] ++ []) = .error e) ∧
    (∃ e, parseBlocks dep0P
      ([] ++ [.heading 2 (some "assistant") "## assistant"] ++ [] ++
        [.code (some "tool-result") "x" "raw"] ++ []) = .error e) :=
  ⟨(misplaced_fence_fails dep0P [] [] [] (some "user") "## user" "raw" "x" Role.user
      (by rfl) (by simp)).1 (by decide),
   (misplaced_fence_fails dep0P [] [] [] (some "assistant") "## assistant" "raw" "x"
      Role.assistant (by rfl) (by simp)).2 (by decide)⟩

/-! ## C6: compressed tool fences (spec-modelled) -/

/-- C6 (spec-modelled): for a fence tagged `tool-call-compressed` in an
assistant section, the payload is decoded, its compressed args decompressed
and the contained JSON parsed before schema validation; success yields the
corresponding `ToolCallPart`; a failure at any stage degrades the block to
an opaque text part carrying the raw slice, and the step result is `ok`
either way, so the block never aborts the whole parse.  Symmetrically for a
`tool-result-compressed` fence in a tool section. -/
theorem compressed_fence_degrades (dep : CompressedParseDeps) (st : ParseState)
    (sec : MsgSection) (v raw : String) (hcur : st.current = some sec) :
    (sec.role = .assistant →
      (∀ pl json args, dep.callPayloadDec v = some pl →
        dep.decompress pl.compressedArgs = some json → dep.argsDec json = some args →
        stepBlockC dep st (.code (some "tool-call-compressed") v raw) =
          .ok (pushPart st (.toolCall ⟨pl.toolCallId, pl.toolName, args⟩))) ∧
      (dep.callPayloadDec v = none →
        stepBlockC dep st (.code (some "tool-call-compressed") v raw) =
          .ok (pushPart st (.text raw))) ∧
      (∀ pl, dep.callPayloadDec v = some pl → dep.decompress pl.compressedArgs = none →
        stepBlockC dep st (.code (some "tool-call-compressed") v raw) =
          .ok (pushPart st (.text raw))) ∧
      (∀ pl json, dep.callPayloadDec v = some pl →
        dep.decompress pl.compressedArgs = some json → dep.argsDec json = none →
        stepBlockC dep st (.code (some "tool-call-compressed") v raw) =
          .ok (pushPart st (.text raw)))) ∧
    (sec.role = .tool →
      (∀ pl json res, dep.resPayloadDec v = some pl →
        dep.decompress pl.compressedResult = some json → dep.resultDec json = some res →
        stepBlockC dep st (.code (some "tool-result-compressed") v raw) =
          .ok (pushPart st (.toolResult ⟨pl.toolCallId, pl.toolName, res⟩))) ∧
      (dep.resPayloadDec v = none →
        stepBlockC dep st (.code (some "tool-result-compressed") v raw) =
          .ok (pushPart st (.text raw))) ∧
      (∀ pl, dep.resPayloadDec v = some pl → dep.decompress pl.compressedResult = none →
        stepBlockC dep st (.code (some "tool-result-compressed") v raw) =
          .ok (pushPart st (.text raw))) ∧
      (∀ pl json, dep.resPayloadDec v = some pl →
        dep.decompress pl.compressedResult = some json → dep.resultDec json = none →
        stepBlockC dep st (.code (some "tool-result-compressed") v raw) =
          .ok (pushPart st (.text raw)))) := by
  constructor
  · intro hrole
    refine ⟨?_, ?_, ?_, ?_⟩
    · intro pl json args h1 h2 h3
      simp only [stepBlockC, hcur]
      simp [hrole, h1, h2, h3]
    · intro h1
      simp only [stepBlockC, hcur]
      simp [hrole, h1]
    · intro pl h1 h2
      simp only [stepBlockC, hcur]
      simp [hrole, h1, h2]
    · intro pl json h1 h2 h3
      simp only [stepBlockC, hcur]
      simp [hrole, h1, h2, h3]
  · intro hrole
    refine ⟨?_, ?_, ?_, ?_⟩
    · intro pl json res h1 h2 h3
      simp only [stepBlockC, hcur]
      simp [hrole, h1, h2, h3]
    · intro h1
      simp only [stepBlockC, hcur]
      simp [hrole, h1]
    · intro pl h1 h2
      simp only [stepBlockC, hcur]
      simp [hrole, h1, h2]
    · intro pl json h1 h2 h3
      simp only [stepBlockC, hcur]
      simp [hrole, h1, h2, h3]

/-- Witness for C6: in an assistant section the decodable payload becomes a
tool-call part, an undecodable one becomes a text part; in a tool section
the same for results; all four step results are ok. -/
theorem compressed_fence_degrades_witness :
    stepBlockC dep0C { secs := [], current := some { role := .assistant, parts := [] } }
      (.code (some "tool-call-compressed") "P" "raw") =
      .ok (pushPart { secs := [], current := some { role := .assistant, parts := [] } }
        (.toolCall ⟨"id1", "listFiles", []⟩)) ∧
    stepBlockC dep0C { secs := [], current := some { role := .assistant, parts := [] } }
      (.code (some "tool-call-compressed") "garbage" "raw") =
      .ok (pushPart { secs := [], current := some { role := .assistant, parts := [] } }
        (.text "raw")) ∧
    stepBlockC dep0C { secs := [], current := some { role := .tool, parts := [] } }
      (.code (some "tool-result-compressed") "P" "raw") =
      .ok (pushPart { secs := [], current := some { role := .tool, parts := [] } }
        (.toolResult ⟨"id1", "listFiles", []⟩)) ∧
    stepBlockC dep0C { secs := [], current := some { role := .tool, parts := [] } }
      (.code (some "tool-result-compressed") "garbage" "raw") =
      .ok (pushPart { secs := [], current := some { role := .tool, parts := [] } }
        (.text "raw")) :=
  ⟨((compressed_fence_degrades dep0C _ _ "P" "raw" rfl).1 rfl).1
      ⟨"id1", "listFiles", "C"⟩ "J" [] (by decide) (by decide) (by decide),
   ((compressed_fence_degrades dep0C _ _ "garbage" "raw" rfl).1 rfl).2.1 (by decide),
   ((compressed_fence_degrades dep0C _ _ "P" "raw" rfl).2 rfl).1
      ⟨"id1", "listFiles", "C"⟩ "J" [] (by decide) (by decide) (by decide),
   ((compressed_fence_degrades dep0C _ _ "garbage" "raw" rfl).2 rfl).2.1 (by decide)⟩

/-! ## C1: round trip for plain messages — serializer side -/

theorem data_empty : ("" : String).data = [] := rfl

theorem strAppend_empty (a : String) : a ++ "" = a :=
  strExt (by simp [data_append, data_empty])

theorem plainMsg_destruct (m : Message) (h : plainMsg m = true) :
    (m.role = Role.user ∨ m.role = Role.assistant) ∧
    m.content = .str (contentStr m) ∧
    (contentStr m = "" ∨ plainLineB (contentStr m) = true) := by
  cases m with
  | mk role content =>
    cases content with
    | str s =>
      simp only [plainMsg, Bool.and_eq_true, Bool.or_eq_true, decide_eq_true_eq] at h
      exact ⟨h.1, rfl, h.2⟩
    | parts ps => simp [plainMsg] at h

theorem messageBody_plain (sdep : SerializeDeps) (compressed : Bool) (m : Message)
    (h : plainMsg m = true) :
    messageBody sdep compressed m = .ok (contentStr m) := by
  obtain ⟨hrole, hcontent, _⟩ := plainMsg_destruct m h
  rcases hrole with hr | hr <;>
    simp [messageBody, hr, hcontent, serializeUserParts, serializeAssistantParts]

theorem mdAccumLoop_plain (sdep : SerializeDeps) (compressed : Bool) :
    ∀ (msgs : List Message) (acc : String), msgs.all plainMsg = true →
    mdAccumLoop sdep compressed acc msgs = .ok (acc ++ concatStrs (msgs.map msgChunk)) := by
  intro msgs
  induction msgs with
  | nil =>
    intro acc _
    simp [mdAccumLoop, concatStrs, strAppend_empty]
  | cons m rest ih =>
    intro acc h
    rw [List.all_cons, Bool.and_eq_true] at h
    obtain ⟨hm, hrest⟩ := h
    have h1 : mdAccumLoop sdep compressed acc (m :: rest) =
        mdAccumLoop sdep compressed
          (acc ++ "## " ++ roleStr m.role ++ "\n\n" ++ contentStr m ++ "\n\n") rest := by
      simp only [mdAccumLoop]
      rw [messageBody_plain sdep compressed m hm]
    rw [h1, ih _ hrest]
    congr 1
    apply strExt
    simp [data_append, msgChunk, concatStrs, List.map_cons]

theorem strEmpty_append (a : String) : "" ++ a = a :=
  strExt (by simp [data_append, data_empty])

theorem concatStrs_append (xs ys : List String) :
    concatStrs (xs ++ ys) = concatStrs xs ++ concatStrs ys := by
  induction xs with
  | nil => simp [concatStrs, strEmpty_append]
  | cons x xs ih => simp [concatStrs, ih, strAppend_assoc]

theorem data_nl2 : ("\n\n" : String).data = ['\n', '\n'] := rfl

/-! ## C1: line splitting -/

theorem splitCharList_cons_sep (sep : Char) (l : List Char) :
    splitCharList sep (sep :: l) = [] :: splitCharList sep l := by
  simp [splitCharList]

theorem splitCharList_append_sep (sep : Char) (l₁ l₂ : List Char) (h : sep ∉ l₁) :
    splitCharList sep (l₁ ++ sep :: l₂) = l₁ :: splitCharList sep l₂ := by
  induction l₁ with
  | nil => simp [splitCharList_cons_sep]
  | cons c cs ih =>
    have hc : ¬(c = sep) := fun hcc => h (by simp [hcc])
    have hcs : sep ∉ cs := fun hm => h (by simp [hm])
    simp only [List.cons_append, splitCharList, List.append_eq]
    rw [ih hcs, if_neg hc]

/-! ## C1: plain-line character facts -/

theorem plainLineB_destruct (s : String) (h : plainLineB s = true) :
    (∃ c cs, s.data = c :: cs ∧ c.isAlphanum = true) ∧
    (∃ l c, s.data = l ++ [c] ∧ plainChar c = true ∧ ¬ c = ' ') ∧
    s.data.all plainChar = true := by
  simp only [plainLineB, Bool.and_eq_true] at h
  obtain ⟨⟨⟨hne, hall⟩, hhead⟩, hlast⟩ := h
  have hne' : s.data ≠ [] := by
    intro h0
    rw [h0] at hne
    simp at hne
  refine ⟨?_, ?_, hall⟩
  · cases hd : s.data with
    | nil => exact absurd hd hne'
    | cons c cs =>
      rw [hd] at hhead
      simp only [List.head?_cons] at hhead
      exact ⟨c, cs, rfl, hhead⟩
  · have hsplit : s.data.dropLast ++ [s.data.getLast hne'] = s.data :=
      List.dropLast_append_getLast hne'
    have hmem : s.data.getLast hne' ∈ s.data := List.getLast_mem hne'
    have hp : plainChar (s.data.getLast hne') = true := by
      rw [List.all_eq_true] at hall
      exact hall _ hmem
    have hlast' : ¬ s.data.getLast hne' = ' ' := by
      rw [List.getLast?_eq_getLast_of_ne_nil hne'] at hlast
      simpa using hlast
    exact ⟨s.data.dropLast, s.data.getLast hne', hsplit.symm, hp, hlast'⟩

theorem plainChar_not_ws (c : Char) (h1 : plainChar c = true) (h2 : ¬ c = ' ') :
    wsChar c = false := by
  by_cases ht : c = '\t'
  · subst ht; exact absurd h1 (by decide)
  · by_cases hn : c = '\n'
    · subst hn; exact absurd h1 (by decide)
    · by_cases hr : c = '\r'
      · subst hr; exact absurd h1 (by decide)
      · simp [wsChar, h2, ht, hn, hr]

theorem alnum_not_ws (c : Char) (h : c.isAlphanum = true) : wsChar c = false := by
  by_cases hs : c = ' '
  · subst hs; exact absurd h (by decide)
  · by_cases ht : c = '\t'
    · subst ht; exact absurd h (by decide)
    · by_cases hn : c = '\n'
      · subst hn; exact absurd h (by decide)
      · by_cases hr : c = '\r'
        · subst hr; exact absurd h (by decide)
        · simp [wsChar, hs, ht, hn, hr]

theorem plainLine_no_nl (s : String) (h : plainLineB s = true) : '\n' ∉ s.data := by
  obtain ⟨_, _, hall⟩ := plainLineB_destruct s h
  intro hmem
  rw [List.all_eq_true] at hall
  exact absurd (hall _ hmem) (by decide)

theorem plainLine_ends_nonws (s : String) (h : plainLineB s = true) :
    ∃ l c, s.data = l ++ [c] ∧ wsChar c = false := by
  obtain ⟨_, ⟨l, c, hd, hp, hsp⟩, _⟩ := plainLineB_destruct s h
  exact ⟨l, c, hd, plainChar_not_ws c hp hsp⟩

theorem plainLine_not_blank (s : String) (h : plainLineB s = true) :
    isBlankLine s = false := by
  obtain ⟨⟨c, cs, hd, halnum⟩, _, _⟩ := plainLineB_destruct s h
  have h1 : ¬ c = ' ' := fun he => absurd halnum (by subst he; decide)
  have h2 : ¬ c = '\t' := fun he => absurd halnum (by subst he; decide)
  simp [isBlankLine, hd, h1, h2]

theorem plainLine_not_heading (s : String) (h : plainLineB s = true) :
    isHeadingLine s = false := by
  obtain ⟨⟨c, cs, hd, halnum⟩, _, _⟩ := plainLineB_destruct s h
  have h1 : ¬ c = '#' := fun he => absurd halnum (by subst he; decide)
  have hk : headingLevel s = 0 := by
    simp [headingLevel, hd, List.takeWhile_cons, h1]
  simp [isHeadingLine, hk]

theorem plainLine_not_fence (s : String) (h : plainLineB s = true) :
    isFenceLine s = false := by
  obtain ⟨⟨c, cs, hd, halnum⟩, _, _⟩ := plainLineB_destruct s h
  have hbt : ("```" : String).data = [backtick, backtick, backtick] := by decide
  unfold isFenceLine jsStartsWith
  rw [hd, hbt]
  cases hbc : backtick == c with
  | false => simp [List.isPrefixOf, hbc]
  | true =>
    have hbc' : backtick = c := by simpa using hbc
    exact absurd halnum (by rw [← hbc']; decide)

theorem plainLine_trim (s : String) (h : plainLineB s = true) : jsTrim s = s := by
  obtain ⟨⟨c, cs, hd, halnum⟩, _, _⟩ := plainLineB_destruct s h
  obtain ⟨l, c2, hd2, hws2⟩ := plainLine_ends_nonws s h
  apply strExt
  show ((s.data.dropWhile wsChar).reverse.dropWhile wsChar).reverse = s.data
  have h1 : s.data.dropWhile wsChar = s.data := by
    rw [hd, List.dropWhile_cons, if_neg (by simp [alnum_not_ws c halnum])]
  rw [h1, hd2]
  simp only [List.reverse_append, List.reverse_cons, List.reverse_nil, List.nil_append,
    List.singleton_append]
  rw [List.dropWhile_cons, if_neg (by simp [hws2])]
  simp

/-! ## C1: trailing-whitespace trimming -/

theorem dropWhile_append_all {α} (p : α → Bool) (l₁ l₂ : List α)
    (h : ∀ a ∈ l₁, p a = true) :
    (l₁ ++ l₂).dropWhile p = l₂.dropWhile p := by
  induction l₁ with
  | nil => rfl
  | cons a as ih =>
    rw [List.cons_append, List.dropWhile_cons, if_pos (h a (by simp))]
    exact ih fun x hx => h x (by simp [hx])

theorem jsTrimEnd_data (X : String) (pre w : List Char) (hX : X.data = pre ++ w)
    (hw : ∀ c ∈ w, wsChar c = true)
    (hpre : pre = [] ∨ ∃ l c, pre = l ++ [c] ∧ wsChar c = false) :
    jsTrimEnd X = ⟨pre⟩ := by
  unfold jsTrimEnd
  rw [hX, List.reverse_append]
  rw [dropWhile_append_all _ _ _ (fun a ha => hw a (by simpa using ha))]
  rcases hpre with rfl | ⟨l, c, rfl, hc⟩
  · simp
  · rw [List.reverse_append]
    simp only [List.reverse_cons, List.reverse_nil, List.nil_append, List.singleton_append]
    rw [List.dropWhile_cons, if_neg (by simp [hc])]
    simp

theorem endsNonWs_append (A x : String)
    (h : ∃ l c, x.data = l ++ [c] ∧ wsChar c = false) :
    ∃ l c, (A ++ x).data = l ++ [c] ∧ wsChar c = false := by
  obtain ⟨l, c, hx, hc⟩ := h
  exact ⟨A.data ++ l, c, by simp [data_append, hx], hc⟩

theorem endsNonWs_chunkCore (m : Message) (h : plainMsg m = true) :
    ∃ l c, (chunkCore m).data = l ++ [c] ∧ wsChar c = false := by
  obtain ⟨hrole, _, hplain⟩ := plainMsg_destruct m h
  by_cases hs : contentStr m = ""
  · rcases hrole with hr | hr
    · refine ⟨("## use" : String).data, 'r', ?_, by decide⟩
      simp only [chunkCore, if_pos hs, hr, roleStr]
      decide
    · refine ⟨("## assistan" : String).data, 't', ?_, by decide⟩
      simp only [chunkCore, if_pos hs, hr, roleStr]
      decide
  · rcases hplain with h0 | hpl
    · exact absurd h0 hs
    · obtain ⟨l, c, hd, hc⟩ := plainLine_ends_nonws _ hpl
      refine ⟨("## " ++ roleStr m.role ++ "\n\n").data ++ l, c, ?_, hc⟩
      simp only [chunkCore, if_neg hs]
      simp [data_append, hd, List.append_assoc]

theorem trimEnd_chunks (A : String) (m : Message) (h : plainMsg m = true) :
    jsTrimEnd (A ++ msgChunk m) = A ++ chunkCore m := by
  by_cases hs : contentStr m = ""
  · apply jsTrimEnd_data _ ((A ++ chunkCore m).data) ['\n', '\n', '\n', '\n']
    · simp [data_append, msgChunk, chunkCore, hs, data_nl2, data_empty, List.append_assoc,
        if_pos]
    · intro c hc
      simp at hc
      subst hc
      decide
    · exact Or.inr (endsNonWs_append A (chunkCore m) (endsNonWs_chunkCore m h))
  · apply jsTrimEnd_data _ ((A ++ chunkCore m).data) ['\n', '\n']
    · simp [data_append, msgChunk, chunkCore, hs, data_nl2, List.append_assoc, if_neg]
    · intro c hc
      simp at hc
      subst hc
      decide
    · exact Or.inr (endsNonWs_append A (chunkCore m) (endsNonWs_chunkCore m h))

/-- The serializer's output on a non-empty plain message list: all chunks,
with the last chunk's trailing blank run replaced by a single newline. -/
theorem messagesToMarkdown_plain (sdep : SerializeDeps) (compressed : Bool)
    (msgs : List Message) (mlast : Message)
    (h : (msgs ++ [mlast]).all plainMsg = true) :
    messagesToMarkdown sdep (msgs ++ [mlast]) compressed =
      .ok (concatStrs (msgs.map msgChunk) ++ (chunkCore mlast ++ "\n")) := by
  have hlast : plainMsg mlast = true := by
    rw [List.all_append] at h
    simpa using (Bool.and_eq_true _ _ |>.mp h).2
  simp only [messagesToMarkdown]
  rw [mdAccumLoop_plain sdep compressed _ "" h]
  have he : ("" ++ concatStrs (List.map msgChunk (msgs ++ [mlast]))) =
      concatStrs (msgs.map msgChunk) ++ msgChunk mlast := by
    rw [strEmpty_append, List.map_append, concatStrs_append]
    simp [concatStrs, strAppend_empty]
  rw [he]
  show Except.ok
      (jsTrimEnd (concatStrs (List.map msgChunk msgs) ++ msgChunk mlast) ++ "\n") = _
  rw [trimEnd_chunks _ _ hlast, strAppend_assoc]

/-! ## C1: lines of the serialized output -/

theorem data_nl1 : ("\n" : String).data = ['\n'] := rfl

theorem mk_data (x : String) : (⟨x.data⟩ : String) = x := rfl

theorem mk_nil : (⟨[]⟩ : String) = "" := rfl

theorem mk_hash_role (r : Role) :
    (⟨'#' :: '#' :: ' ' :: (roleStr r).data⟩ : String) = "## " ++ roleStr r := rfl

theorem no_nl_role_heading (r : Role) (h : r = Role.user ∨ r = Role.assistant) :
    '\n' ∉ ("## " ++ roleStr r).data := by
  rcases h with h | h <;> subst h <;> decide

theorem jsSplit_msgChunk (m : Message) (hm : plainMsg m = true) (t : String) :
    jsSplit '\n' (msgChunk m ++ t) = msgLines m ++ jsSplit '\n' t := by
  obtain ⟨hrole, _, hplain⟩ := plainMsg_destruct m hm
  have hnl_hd : '\n' ∉ ("## " ++ roleStr m.role).data := no_nl_role_heading _ hrole
  have hnl_s : '\n' ∉ (contentStr m).data := by
    rcases hplain with h0 | hp
    · rw [h0, data_empty]
      simp
    · exact plainLine_no_nl _ hp
  have hdata : (msgChunk m ++ t).data =
      ("## " ++ roleStr m.role).data ++ '\n' :: '\n' ::
        ((contentStr m).data ++ '\n' :: '\n' :: t.data) := by
    simp [msgChunk, data_append, data_nl2, List.append_assoc]
  unfold jsSplit
  rw [hdata, splitCharList_append_sep _ _ _ hnl_hd, splitCharList_cons_sep,
    splitCharList_append_sep _ _ _ hnl_s, splitCharList_cons_sep]
  simp [msgLines, mk_data, mk_nil, mk_hash_role]

theorem jsSplit_concatChunks :
    ∀ (msgs : List Message), msgs.all plainMsg = true → ∀ (t : String),
    jsSplit '\n' (concatStrs (msgs.map msgChunk) ++ t) =
      msgs.flatMap msgLines ++ jsSplit '\n' t := by
  intro msgs
  induction msgs with
  | nil =>
    intro _ t
    simp [concatStrs, strEmpty_append]
  | cons m rest ih =>
    intro h t
    rw [List.all_cons, Bool.and_eq_true] at h
    have hassoc : concatStrs ((m :: rest).map msgChunk) ++ t =
        msgChunk m ++ (concatStrs (rest.map msgChunk) ++ t) := by
      simp [concatStrs, strAppend_assoc]
    rw [hassoc, jsSplit_msgChunk m h.1, ih h.2 t]
    simp [List.append_assoc]

theorem jsSplit_lastChunk (m : Message) (hm : plainMsg m = true) :
    jsSplit '\n' (chunkCore m ++ "\n") =
      ["## " ++ roleStr m.role, ""] ++
        (if contentStr m = "" then [] else [contentStr m, ""]) := by
  obtain ⟨hrole, _, hplain⟩ := plainMsg_destruct m hm
  have hnl_hd : '\n' ∉ ("## " ++ roleStr m.role).data := no_nl_role_heading _ hrole
  by_cases hs : contentStr m = ""
  · have hdata : (chunkCore m ++ "\n").data =
        ("## " ++ roleStr m.role).data ++ '\n' :: ([] : List Char) := by
      simp [chunkCore, hs, data_append, data_nl1]
    unfold jsSplit
    rw [hdata, splitCharList_append_sep _ _ _ hnl_hd]
    simp [hs, mk_data, mk_nil, mk_hash_role, splitCharList]
  · have hnl_s : '\n' ∉ (contentStr m).data := by
      rcases hplain with h0 | hp
      · exact absurd h0 hs
      · exact plainLine_no_nl _ hp
    have hdata : (chunkCore m ++ "\n").data =
        ("## " ++ roleStr m.role).data ++ '\n' :: '\n' ::
          ((contentStr m).data ++ '\n' :: ([] : List Char)) := by
      simp [chunkCore, hs, data_append, data_nl1, data_nl2, List.append_assoc]
    unfold jsSplit
    rw [hdata, splitCharList_append_sep _ _ _ hnl_hd, splitCharList_cons_sep,
      splitCharList_append_sep _ _ _ hnl_s]
    simp [hs, mk_data, mk_nil, mk_hash_role, splitCharList]

/-! ## C1: tokenizing the serialized lines -/

theorem tokStep_normal_blank (blocks : List MdBlock) (l : String)
    (h : isBlankLine l = true) :
    tokStep ⟨blocks, .normal⟩ l = ⟨blocks, .normal⟩ := by
  simp [tokStep, h]

theorem tokStep_normal_heading (blocks : List MdBlock) (l : String)
    (hb : isBlankLine l = false) (hh : isHeadingLine l = true) :
    tokStep ⟨blocks, .normal⟩ l = ⟨blocks ++ [headingBlockOf l], .normal⟩ := by
  simp [tokStep, hb, hh]

theorem tokStep_normal_text (blocks : List MdBlock) (l : String)
    (hb : isBlankLine l = false) (hh : isHeadingLine l = false)
    (hf : isFenceLine l = false) :
    tokStep ⟨blocks, .normal⟩ l = ⟨blocks, .inPara [l]⟩ := by
  simp [tokStep, hb, hh, hf]

theorem tokStep_para_blank (blocks : List MdBlock) (acc : List String) (l : String)
    (h : isBlankLine l = true) :
    tokStep ⟨blocks, .inPara acc⟩ l = ⟨blocks ++ [paraBlockOf acc], .normal⟩ := by
  simp [tokStep, h]

theorem headingBlockOf_role (r : Role) (h : r = Role.user ∨ r = Role.assistant) :
    isBlankLine ("## " ++ roleStr r) = false ∧
    isHeadingLine ("## " ++ roleStr r) = true ∧
    headingBlockOf ("## " ++ roleStr r) =
      .heading 2 (some (roleStr r)) ("## " ++ roleStr r) := by
  rcases h with h | h <;> subst h <;> exact ⟨by decide, by decide, by decide⟩

theorem joinSep_single (sep : Char) (x : String) : joinSep sep [x] = x := by
  apply strExt
  simp [joinSep, List.intercalate]

theorem tok_msgLines (m : Message) (hm : plainMsg m = true) (blocks : List MdBlock) :
    List.foldl tokStep ⟨blocks, .normal⟩ (msgLines m) = ⟨blocks ++ msgBlocks m, .normal⟩ := by
  obtain ⟨hrole, _, hplain⟩ := plainMsg_destruct m hm
  obtain ⟨hhb, hhh, hhblock⟩ := headingBlockOf_role m.role hrole
  simp only [msgLines, List.foldl_cons, List.foldl_nil]
  rw [tokStep_normal_heading _ _ hhb hhh, hhblock, tokStep_normal_blank _ _ (by decide)]
  by_cases hs : contentStr m = ""
  · rw [hs, tokStep_normal_blank _ _ (by decide), tokStep_normal_blank _ _ (by decide)]
    simp [msgBlocks, hs]
  · rcases hplain with h0 | hp
    · exact absurd h0 hs
    · rw [tokStep_normal_text _ _ (plainLine_not_blank _ hp) (plainLine_not_heading _ hp)
        (plainLine_not_fence _ hp), tokStep_para_blank _ _ _ (by decide)]
      have hpara : paraBlockOf [contentStr m] = .para (contentStr m) (contentStr m) := by
        simp [paraBlockOf, joinSep_single, plainLine_trim _ hp]
      rw [hpara]
      simp [msgBlocks, hs, List.append_assoc]

theorem tok_flatMap :
    ∀ (msgs : List Message), msgs.all plainMsg = true → ∀ (blocks : List MdBlock),
    List.foldl tokStep ⟨blocks, .normal⟩ (msgs.flatMap msgLines) =
      ⟨blocks ++ msgs.flatMap msgBlocks, .normal⟩ := by
  intro msgs
  induction msgs with
  | nil =>
    intro _ blocks
    simp
  | cons m rest ih =>
    intro h blocks
    rw [List.all_cons, Bool.and_eq_true] at h
    rw [List.flatMap_cons, List.foldl_append, tok_msgLines m h.1, ih h.2]
    simp [List.append_assoc]

theorem mdTokenize_plain (msgs : List Message) (mlast : Message)
    (h : (msgs ++ [mlast]).all plainMsg = true) :
    mdTokenize (concatStrs (msgs.map msgChunk) ++ (chunkCore mlast ++ "\n")) =
      (msgs ++ [mlast]).flatMap msgBlocks := by
  rw [List.all_append, Bool.and_eq_true] at h
  have hmsgs : msgs.all plainMsg = true := h.1
  have hmlast : plainMsg mlast = true := by simpa using h.2
  obtain ⟨hrole, _, _⟩ := plainMsg_destruct mlast hmlast
  obtain ⟨hhb, hhh, hhblock⟩ := headingBlockOf_role mlast.role hrole
  unfold mdTokenize
  rw [jsSplit_concatChunks msgs hmsgs _, jsSplit_lastChunk mlast hmlast,
    List.foldl_append, tok_flatMap msgs hmsgs []]
  by_cases hs : contentStr mlast = ""
  · rw [if_pos hs]
    simp only [List.cons_append, List.nil_append, List.foldl_cons, List.foldl_nil]
    rw [tokStep_normal_heading _ _ hhb hhh, hhblock, tokStep_normal_blank _ _ (by decide)]
    simp [tokFinish, msgBlocks, hs, List.flatMap_append, List.append_assoc]
  · rw [if_neg hs]
    have hlines : (["## " ++ roleStr mlast.role, ""] ++ [contentStr mlast, ""]) =
        msgLines mlast := by
      simp [msgLines]
    rw [hlines, tok_msgLines mlast hmlast]
    simp [tokFinish, List.flatMap_append, List.append_assoc]

/-! ## C1: parsing the tokenized blocks back -/

theorem checkRoleHeading_roleStr (r : Role) (h : r = Role.user ∨ r = Role.assistant) :
    checkRoleHeading (some (roleStr r)) = some r := by
  rcases h with h | h <;> subst h <;> decide

theorem stripOneTrailingNl_append (s : String) :
    stripOneTrailingNl (s ++ "\n") = s := by
  have hend : jsEndsWith (s ++ "\n") "\n" = true := by
    unfold jsEndsWith
    simp [data_append, data_nl1, List.isPrefixOf]
  unfold stripOneTrailingNl
  rw [if_pos hend]
  apply strExt
  show ((s ++ "\n").data.take ((s ++ "\n").data.length - 1)) = s.data
  simp [data_append, data_nl1]

theorem msg_eq_of_content (m : Message) (c : MessageContent)
    (h : m.content = c) : m = ⟨m.role, c⟩ := by
  cases m
  simp_all

theorem parse_msgBlocks (dep : ParseDeps) :
    ∀ (msgs : List Message), msgs.all plainMsg = true →
    ∀ (secs : List MsgSection) (cur : Option MsgSection),
    ∃ st, foldBlocks dep (.ok ⟨secs, cur⟩) (msgs.flatMap msgBlocks) = .ok st ∧
      finishParse st = finishParse ⟨secs, cur⟩ ++ msgs := by
  intro msgs
  induction msgs with
  | nil =>
    intro _ secs cur
    exact ⟨⟨secs, cur⟩, rfl, by simp⟩
  | cons m rest ih =>
    intro h secs cur
    rw [List.all_cons, Bool.and_eq_true] at h
    obtain ⟨hm, hrest⟩ := h
    obtain ⟨hrole, hcontent, hplain⟩ := plainMsg_destruct m hm
    have hstep1 : stepBlock dep ⟨secs, cur⟩
        (.heading 2 (some (roleStr m.role)) ("## " ++ roleStr m.role)) =
        .ok ⟨secs ++ cur.toList, some ⟨m.role, []⟩⟩ := by
      simp only [stepBlock]
      rw [checkRoleHeading_roleStr _ hrole]
    by_cases hs : contentStr m = ""
    · have hblocks : msgBlocks m =
          [.heading 2 (some (roleStr m.role)) ("## " ++ roleStr m.role)] := by
        simp [msgBlocks, hs]
      rcases ih hrest (secs ++ cur.toList) (some ⟨m.role, []⟩) with ⟨st, hfold, hfin⟩
      refine ⟨st, ?_, ?_⟩
      · rw [List.flatMap_cons, hblocks, foldBlocks_append]
        have h1 : foldBlocks dep (.ok ⟨secs, cur⟩)
            [MdBlock.heading 2 (some (roleStr m.role)) ("## " ++ roleStr m.role)] =
            .ok ⟨secs ++ cur.toList, some ⟨m.role, []⟩⟩ := hstep1
        rw [h1]
        exact hfold
      · rw [hfin]
        have hmsg : m = ⟨m.role, MessageContent.str ""⟩ := by
          have := msg_eq_of_content m _ hcontent
          rwa [hs] at this
        rw [hmsg]
        unfold finishParse
        simp [sectionContent, List.append_assoc]
    · rcases hplain with h0 | hp
      · exact absurd h0 hs
      · have hblocks : msgBlocks m =
            [.heading 2 (some (roleStr m.role)) ("## " ++ roleStr m.role),
             .para (contentStr m) (contentStr m)] := by
          simp [msgBlocks, hs]
        rcases ih hrest (secs ++ cur.toList)
            (some ⟨m.role, [.text (contentStr m ++ "\n")]⟩) with ⟨st, hfold, hfin⟩
        refine ⟨st, ?_, ?_⟩
        · rw [List.flatMap_cons, hblocks, foldBlocks_append]
          have h1 : foldBlocks dep (.ok ⟨secs, cur⟩)
              [MdBlock.heading 2 (some (roleStr m.role)) ("## " ++ roleStr m.role),
               MdBlock.para (contentStr m) (contentStr m)] =
              .ok ⟨secs ++ cur.toList, some ⟨m.role, [.text (contentStr m ++ "\n")]⟩⟩ := by
            show foldBlocks dep (stepBlock dep ⟨secs, cur⟩ _) [_] = _
            rw [hstep1]
            rfl
          rw [h1]
          exact hfold
        · rw [hfin]
          have hmsg : m = ⟨m.role, MessageContent.str (contentStr m)⟩ :=
            msg_eq_of_content m _ hcontent
          unfold finishParse
          simp only [sectionContent, List.map_append, List.append_assoc, Option.toList_some,
            List.map_cons, List.map_nil]
          rw [stripOneTrailingNl_append]
          rw [← hmsg]
          simp

/-- C1 counterexample: a system message is accepted by the serializer (in
both compression modes) but the parser does not recognize the `## system`
heading, so the round trip returns the empty message list, not the input. -/
theorem roundtrip_system_counterexample :
    messagesToMarkdown dep0S [⟨.system, .str "hi"⟩] false = .ok "## system\n\nhi\n" ∧
    messagesToMarkdown dep0S [⟨.system, .str "hi"⟩] true = .ok "## system\n\nhi\n" ∧
    markdownToMessages dep0P "## system\n\nhi\n" = .ok [] ∧
    ([] : List Message) ≠ [⟨.system, .str "hi"⟩] := by
  refine ⟨rfl, rfl, rfl, by decide⟩

/-- C1 amended: for every message list whose messages have role user or
assistant and whose content is a bare string that is empty or a plain
single-line text (no markdown metacharacters, no surrounding whitespace),
serialization succeeds and parsing the serialized markdown yields a message
list deep-equal to the input, under both the compressed and the
uncompressed serialization mode. -/
theorem roundtrip_plain_messages (sdep : SerializeDeps) (pdep : ParseDeps)
    (msgs : List Message) (compressed : Bool) (h : msgs.all plainMsg = true) :
    ∃ s, messagesToMarkdown sdep msgs compressed = .ok s ∧
      markdownToMessages pdep s = .ok msgs := by
  rcases List.eq_nil_or_concat msgs with rfl | ⟨init, mlast, rfl⟩
  · exact ⟨"\n", rfl, rfl⟩
  · rw [List.concat_eq_append] at h ⊢
    refine ⟨_, messagesToMarkdown_plain sdep compressed init mlast h, ?_⟩
    unfold markdownToMessages
    rw [mdTokenize_plain init mlast h]
    unfold parseBlocks
    rcases parse_msgBlocks pdep (init ++ [mlast]) h [] none with ⟨st, hfold, hfin⟩
    rw [hfold]
    show Except.ok (finishParse st) = _
    rw [hfin]
    rfl

/-- Witness for C1's amended round trip: the spec's own scenario, both
modes. -/
theorem roundtrip_plain_messages_witness :
    ([⟨.user, .str "Hello World!"⟩, ⟨.assistant, .str "Hello User!"⟩] :
        List Message).all plainMsg = true ∧
    (∃ s, messagesToMarkdown dep0S
        [⟨.user, .str "Hello World!"⟩, ⟨.assistant, .str "Hello User!"⟩] false = .ok s ∧
      markdownToMessages dep0P s =
        .ok [⟨.user, .str "Hello World!"⟩, ⟨.assistant, .str "Hello User!"⟩]) ∧
    (∃ s, messagesToMarkdown dep0S
        [⟨.user, .str "Hello World!"⟩, ⟨.assistant, .str "Hello User!"⟩] true = .ok s ∧
      markdownToMessages dep0P s =
        .ok [⟨.user, .str "Hello World!"⟩, ⟨.assistant, .str "Hello User!"⟩]) :=
  ⟨by decide,
   roundtrip_plain_messages dep0S dep0P _ false (by decide),
   roundtrip_plain_messages dep0S dep0P _ true (by decide)⟩

end MdAI
